import Mathlib

/-!
# Verification of the kairos_memory_merge core

Shallow embedding of the registry / merge / witness-synthesis core:

* `app/core/witness.py` (in the repository) is embedded directly:
  `extract_witness_chain_from_url`, `merge_derived_context`,
  `soft_patch_topology` (the source's `_soft_patch_topology`) and
  `synthesize_edges_from_witness_chain`.
* `app/core/state_store.py` (in the repository) is embedded directly:
  `inhale_files`, `_load_from_disk`, `get_state`.
* The helper modules `app/core/url_extract.py`, `app/core/merge_engine.py`,
  `app/core/jsonio.py`, `app/core/kai_time.py` and `app/models/payload.py`
  are imported by the sources above but are not part of the source tree
  given here; those definitions are modelled from the specification and
  carry a `Modelled from the spec:` note.

Python dictionaries are modelled as association lists with unique keys,
Python `None`/`""` truthiness on strings as `optTruthy`, exceptions as
`Except`, and JSON values as the inductive `Json`.
-/

/-- JSON values, as decoded by the canonical JSON codec. -/
inductive Json where
  | null
  | bool (b : Bool)
  | num (n : Int)
  | str (s : String)
  | arr (xs : List Json)
  | obj (kvs : List (String × Json))
deriving Repr

/-- Modelled from the spec: `SigilPayloadLoose` from `app/models/payload.py`
(not under `src/`): the fixed set of known fields (logical clock, identity,
provenance) plus an open map of extension fields preserved verbatim. -/
structure SigilPayloadLoose where
  pulse : Nat := 0
  beat : Nat := 0
  stepIndex : Nat := 0
  chakraDay : Option String := none
  userPhiKey : Option String := none
  kaiSignature : Option String := none
  originUrl : Option String := none
  parentUrl : Option String := none
  extras : List (String × Json) := []
deriving Repr

/-- Python truthiness of an optional string field: `None` and `""` are
falsy, every other string is truthy. -/
def optTruthy : Option String → Bool
  | none => false
  | some s => !s.isEmpty

/-- The registry: canonical URL key → payload (a Python dict). -/
abbrev Registry := List (String × SigilPayloadLoose)

/-- Dict lookup (first occurrence of the key). -/
def regFind (reg : Registry) (k : String) : Option SigilPayloadLoose :=
  match reg with
  | [] => none
  | (k', p) :: rest => if k' = k then some p else regFind rest k

/-- Dict assignment `reg[k] = p`: replace the first occurrence of `k`,
append when absent. -/
def regSet (reg : Registry) (k : String) (p : SigilPayloadLoose) : Registry :=
  match reg with
  | [] => [(k, p)]
  | (k', p') :: rest => if k' = k then (k, p) :: rest else (k', p') :: regSet rest k p

/-- Keys of the registry, in insertion order. -/
def regKeys (reg : Registry) : List String := reg.map (·.1)

/-- The logical clock tuple `(pulse, beat, stepIndex)`. -/
abbrev KaiTup := Nat × Nat × Nat

/-- The logical-clock tuple of a payload. -/
def kaiTuple (p : SigilPayloadLoose) : KaiTup := (p.pulse, p.beat, p.stepIndex)

/-- Modelled from the spec: lexicographic greater-or-equal on logical-clock
tuples (pulse first, then beat, then stepIndex), the comparison used by the
merge engine (`app/core/merge_engine.py`, not under `src/`). -/
def kaiGE (a b : KaiTup) : Bool :=
  decide (b.1 < a.1 ∨ (a.1 = b.1 ∧ (b.2.1 < a.2.1 ∨ (a.2.1 = b.2.1 ∧ b.2.2 ≤ a.2.2))))

/-! ### Executable string helpers

Core `String` functions such as `String.splitOn` and `String.trim` are
defined by well-founded recursion over byte positions and do not reduce
inside the kernel, so the string manipulation used by the embedded code is
implemented here by structural recursion over character lists. -/

/-- Whitespace, as stripped by Python's `str.strip`. -/
def isWSChar (c : Char) : Bool :=
  c == ' ' || c == '\t' || c == '\n' || c == '\r'

/-- `str.strip()`: drop whitespace from both ends. -/
def strTrim (s : String) : String :=
  String.mk (((s.data.dropWhile isWSChar).reverse.dropWhile isWSChar).reverse)

/-- Does the pattern lead the text? -/
def leadsWith : List Char → List Char → Bool
  | [], _ => true
  | _ :: _, [] => false
  | a :: as, b :: bs => a == b && leadsWith as bs

/-- Split the text at the first occurrence of the pattern: `some (pre,
post)` with the text = pre ++ pattern ++ post, `none` when absent. -/
def breakFirstChars (sep : List Char) : List Char → Option (List Char × List Char)
  | [] => if sep.isEmpty then some ([], []) else none
  | c :: rest =>
    if leadsWith sep (c :: rest) then some ([], (c :: rest).drop sep.length)
    else
      match breakFirstChars sep rest with
      | some (pre, post) => some (c :: pre, post)
      | none => none

/-- String version of `breakFirstChars`: the part before the first
occurrence of `sep` and, when present, the part after it
(Python's `s.split(sep, 1)`). -/
def breakFirst (sep s : String) : String × Option String :=
  match breakFirstChars sep.data s.data with
  | none => (s, none)
  | some (pre, post) => (String.mk pre, some (String.mk post))

/-- Does `s` contain `sub` as a substring? -/
def containsSub (sub s : String) : Bool := (breakFirstChars sub.data s.data).isSome

/-- Does `s` start with `pre`? -/
def strStarts (pre s : String) : Bool := leadsWith pre.data s.data

/-- Split on every occurrence of a single character (Python `s.split(c)`). -/
def splitChar (sep : Char) : List Char → List (List Char)
  | [] => [[]]
  | c :: rest =>
    if c == sep then [] :: splitChar sep rest
    else
      match splitChar sep rest with
      | [] => [[c]]
      | seg :: segs => (c :: seg) :: segs

/-- Hex digit value, used by the percent-decoder. -/
def hexVal (c : Char) : Option Nat :=
  if '0' ≤ c ∧ c ≤ '9' then some (c.toNat - '0'.toNat)
  else if 'a' ≤ c ∧ c ≤ 'f' then some (c.toNat - 'a'.toNat + 10)
  else if 'A' ≤ c ∧ c ≤ 'F' then some (c.toNat - 'A'.toNat + 10)
  else none

/-- Percent-decoding over a character list: `%XY` with two hex digits
becomes the character with code `16*X+Y`; a malformed escape is left as a
literal `%`. (Byte-level model of `urllib.parse.unquote`.) -/
def percentDecodeChars : List Char → List Char
  | [] => []
  | '%' :: h1 :: h2 :: rest =>
    match hexVal h1, hexVal h2 with
    | some a, some b => Char.ofNat (16 * a + b) :: percentDecodeChars rest
    | _, _ => '%' :: percentDecodeChars (h1 :: h2 :: rest)
  | c :: rest => c :: percentDecodeChars rest
termination_by l => l.length

/-- Percent-decoding of a string. -/
def percentDecode (s : String) : String := String.mk (percentDecodeChars s.data)

/-- Does the string contain a malformed percent escape? -/
def hasMalformedEscape : List Char → Bool
  | [] => false
  | '%' :: h1 :: h2 :: rest =>
    if (hexVal h1).isSome && (hexVal h2).isSome then hasMalformedEscape rest else true
  | '%' :: _ => true
  | _ :: rest => hasMalformedEscape rest
termination_by l => l.length

/-- Modelled from the spec: `safe_decode_uri_component` from
`app/core/url_extract.py` (not under `src/`): best-effort percent decoding;
on malformed escape sequences the original string is returned unchanged. -/
def safe_decode_uri_component (s : String) : String :=
  if hasMalformedEscape s.data then s else percentDecode s

/-- Characters allowed in a bare token (identifier-like grammar). -/
def isTokenChar (c : Char) : Bool := c.isAlphanum || c = '-' || c = '_'

/-- Modelled from the spec: `looks_like_bare_token` from
`app/core/url_extract.py` (not under `src/`): a non-empty string with no
scheme and no path separators, matching an identifier-like grammar. -/
def looks_like_bare_token (s : String) : Bool := !s.isEmpty && s.data.all isTokenChar

/-- Modelled from the spec: `canonicalize_url` from `app/core/url_extract.py`
(not under `src/`). Absolute URLs (carrying a scheme) are returned
unchanged; a bare token is rewritten to `/stream/p/<token>` and resolved
against the base origin; relative paths are resolved against the base
origin; empty or unparseable input (here: containing a space) yields
`none`. -/
def canonicalize_url (raw : String) (base_origin : String) : Option String :=
  let t := strTrim raw
  if t = "" then none
  else if t.data.contains ' ' then none
  else if containsSub "://" t then some t
  else if looks_like_bare_token t then some (base_origin ++ "/stream/p/" ++ t)
  else if strStarts "/" t then some (base_origin ++ t)
  else some (base_origin ++ "/" ++ t)

/-- A decoded payload together with its canonical registry key. -/
structure ExtractHit where
  url_key : String
  payload : SigilPayloadLoose
deriving Repr

/-- Modelled from the spec: `extract_payload_from_url` from
`app/core/url_extract.py` (not under `src/`): attempts to decode a payload
embedded in the URL's own `/stream/p/<token>` segment; the returned key is
the canonical URL itself; `none` when no decodable token is present. -/
def tokenSegment (rest : String) : String :=
  (breakFirst "#" (breakFirst "?" rest).1).1

/-- Modelled from the spec (continued): the decodable-token test and the
payload materialized from it. -/
def extract_payload_from_url (url : String) (_base_origin : String) : Option ExtractHit :=
  match (breakFirst "/stream/p/" url).2 with
  | some rest =>
    if looks_like_bare_token (tokenSegment rest) then
      some { url_key := url
             payload := { pulse := 0, beat := 0, stepIndex := 0
                          extras := [("token", Json.str (tokenSegment rest))] } }
    else none
  | none => none

/-! ## `app/core/witness.py` -/

/-- The witness chain is bounded to the most recent 512 entries
(`WITNESS_ADD_MAX` in `app/core/witness.py`). -/
def WITNESS_ADD_MAX : Nat := 512

/-- Fragment component of a URL (after the first `#`), as in
`urllib.parse.urlsplit`. -/
def urlFragment (url : String) : String := ((breakFirst "#" url).2).getD ""

/-- Query component of a URL (after the first `?`, before the fragment). -/
def urlQuery (url : String) : String :=
  ((breakFirst "?" (breakFirst "#" url).1).2).getD ""

/-- Replace `+` by a space, as `urllib.parse.parse_qs` does before
percent-decoding. -/
def plusToSpace (s : String) : String :=
  String.mk (s.data.map fun c => if c = '+' then ' ' else c)

/-- Values for the key `add` in a query string, in order of appearance, as
returned by `urllib.parse.parse_qs(qs, keep_blank_values=False)`: pairs
split on `&`, a pair without `=` or with an empty raw value is dropped, and
names and values are `+`-decoded then percent-decoded. -/
def qsValuesAdd (qs : String) : List String :=
  (splitChar '&' qs.data).filterMap fun pairChars =>
    match breakFirst "=" (String.mk pairChars) with
    | (_, none) => none
    | (k, some rawv) =>
      if rawv = "" then none
      else if percentDecode (plusToSpace k) = "add" then
        some (percentDecode (plusToSpace rawv))
      else none

/-- The fragment parameter string: the URL fragment with one leading `#`
stripped, as in the source. -/
def fragParams (url : String) : String :=
  let f := urlFragment url
  match f.data with
  | '#' :: rest => String.mk rest
  | _ => f

/-- `_extract_add_values_from_url` from `app/core/witness.py`: raw `add=`
values from both the query string and the fragment (query first, fragment
second), keeping only non-blank values. -/
def extract_add_values_from_url (url : String) : List String :=
  let raw1 := qsValuesAdd (urlQuery url)
  let frag := fragParams url
  let raw2 := if frag = "" then [] else qsValuesAdd frag
  (raw1 ++ raw2).filter fun a => !a.isEmpty && !(strTrim a).isEmpty

/-- One iteration of the chain loop in `extract_witness_chain_from_url`:
best-effort decode, drop blank, rewrite a bare token to
`/stream/p/<token>`, canonicalize; `none` means the value is skipped. -/
def processAdd (base_origin : String) (raw : String) : Option String :=
  let decoded := strTrim (safe_decode_uri_component raw)
  if decoded = "" then none
  else
    let d := if looks_like_bare_token decoded then "/stream/p/" ++ decoded else decoded
    canonicalize_url d base_origin

/-- The accumulation loop of `extract_witness_chain_from_url`: process each
raw value and append it unless already seen (the source's `seen` set holds
exactly the elements of `out`). -/
def witnessLoop (base_origin : String) : List String → List String → List String
  | [], out => out
  | raw :: rest, out =>
    match processAdd base_origin raw with
    | none => witnessLoop base_origin rest out
    | some link =>
      witnessLoop base_origin rest (if link ∈ out then out else out ++ [link])

/-- `extract_witness_chain_from_url` from `app/core/witness.py`: canonicalize
the URL, extract `add=` values, decode/rewrite/canonicalize each,
deduplicate in first-seen order, and keep only the last
`WITNESS_ADD_MAX` entries. -/
def extract_witness_chain_from_url (url : String) (base_origin : String) : List String :=
  match canonicalize_url url base_origin with
  | none => []
  | some abs_url =>
    let raw_adds := extract_add_values_from_url abs_url
    let out := witnessLoop base_origin raw_adds []
    if out.length > WITNESS_ADD_MAX then out.drop (out.length - WITNESS_ADD_MAX) else out

/-- Witness context derived from an `add=` chain
(`WitnessCtx` in `app/core/witness.py`). -/
structure WitnessCtx where
  chain : List String
  originUrl : Option String := none
  parentUrl : Option String := none
deriving Repr

/-- `derive_witness_context` from `app/core/witness.py`. -/
def derive_witness_context (url : String) (base_origin : String) : WitnessCtx :=
  let chain := extract_witness_chain_from_url url base_origin
  if chain.isEmpty then { chain := [] }
  else { chain := chain, originUrl := chain.head?, parentUrl := chain.getLast? }

/-- `merge_derived_context` from `app/core/witness.py`: fill
`originUrl`/`parentUrl` from the context without overriding explicit
(truthy) payload fields. -/
def merge_derived_context (payload : SigilPayloadLoose) (ctx : WitnessCtx) : SigilPayloadLoose :=
  let p1 :=
    if optTruthy ctx.originUrl && !(optTruthy payload.originUrl) then
      { payload with originUrl := ctx.originUrl }
    else payload
  if optTruthy ctx.parentUrl && !(optTruthy p1.parentUrl) then
    { p1 with parentUrl := ctx.parentUrl }
  else p1

/-- `_soft_patch_topology` from `app/core/witness.py`: fill missing
`originUrl`/`parentUrl` only; never overwrite a truthy value. Returns the
(possibly) patched payload and whether anything changed. -/
def soft_patch_topology (p : SigilPayloadLoose) (originUrl parentUrl : Option String) :
    SigilPayloadLoose × Bool :=
  let s1 :=
    if optTruthy originUrl && !(optTruthy p.originUrl) then
      ({ p with originUrl := originUrl }, true)
    else (p, false)
  let s2 :=
    if optTruthy parentUrl && !(optTruthy s1.1.parentUrl) then
      ({ s1.1 with parentUrl := parentUrl }, true)
    else (s1.1, false)
  (s2.1, s1.2 || s2.2)

/-- The `ensure` closure of `synthesize_edges_from_witness_chain`: insert a
payload decoded from the URL when the key is absent; count 1 on insert. -/
def ensureReg (base_origin : String) (reg : Registry) (url : String) : Registry × Nat :=
  match regFind reg url with
  | some _ => (reg, 0)
  | none =>
    match extract_payload_from_url url base_origin with
    | none => (reg, 0)
    | some hit => (regSet reg hit.url_key hit.payload, 1)

/-- One `if url in reg: soft-patch` block of
`synthesize_edges_from_witness_chain`; counts 1 when the patch changed the
entry. -/
def patchInReg (reg : Registry) (k : String) (o pu : Option String) : Registry × Nat :=
  match regFind reg k with
  | none => (reg, 0)
  | some p =>
    let r := soft_patch_topology p o pu
    if r.2 then (regSet reg k r.1, 1) else (reg, 0)

/-- `ensure` followed by the soft-patch block, the step performed for each
node of the chain (and for the leaf). -/
def ensurePatch (base_origin : String) (reg : Registry) (k : String) (o pu : Option String) :
    Registry × Nat :=
  let r1 := ensureReg base_origin reg k
  let r2 := patchInReg r1.1 k o pu
  (r2.1, r1.2 + r2.2)

/-- The interior-node loop of `synthesize_edges_from_witness_chain` over
consecutive `(parent, child)` pairs of the canonical chain. -/
def synthPairsLoop (base_origin origin : String) :
    Registry × Nat → List (String × String) → Registry × Nat
  | acc, [] => acc
  | (reg, c), (parent, child) :: rest =>
    let r := ensurePatch base_origin reg child (some origin) (some parent)
    synthPairsLoop base_origin origin (r.1, c + r.2) rest

/-- Consecutive `(parent, child)` pairs of a chain, i.e. the loop indices
`i = 1 .. len-1` with `parent = chain[i-1]`, `child = chain[i]`. -/
def chainPairs (chain_abs : List String) : List (String × String) :=
  chain_abs.zip chain_abs.tail

/-- `synthesize_edges_from_witness_chain` from `app/core/witness.py`:
defensively canonicalize the chain and the leaf, ensure/patch the origin,
each interior node, and the leaf; returns the updated registry and the
number of entries created or patched. -/
def synthesize_edges_from_witness_chain (chain : List String) (leaf_url : String)
    (reg : Registry) (base_origin : String) : Registry × Nat :=
  if chain.isEmpty then (reg, 0)
  else
    match chain.filterMap (canonicalize_url · base_origin) with
    | [] => (reg, 0)
    | origin :: rest =>
      match canonicalize_url leaf_url base_origin with
      | none => (reg, 0)
      | some leaf_abs =>
        let chain_abs := origin :: rest
        let r1 := ensurePatch base_origin reg origin (some origin) none
        let r2 := synthPairsLoop base_origin origin (r1.1, 0) (chainPairs chain_abs)
        let leaf_parent := chain_abs.getLast (List.cons_ne_nil _ _)
        let r3 := ensurePatch base_origin r2.1 leaf_abs (some origin) (some leaf_parent)
        (r3.1, r1.2 + r2.2 + r3.2)

/-! ## First sanity theorems -/

/-- C9: an empty chain is a no-op returning 0. -/
theorem synthesize_empty_chain_noop (leaf_url : String) (reg : Registry) (base_origin : String) :
    synthesize_edges_from_witness_chain [] leaf_url reg base_origin = (reg, 0) := by
  simp [synthesize_edges_from_witness_chain]

/-! ## Registry and soft-patch lemmas -/

theorem regFind_regSet_self (reg : Registry) (k : String) (p : SigilPayloadLoose) :
    regFind (regSet reg k p) k = some p := by
  induction reg with
  | nil => simp [regSet, regFind]
  | cons hd tl ih =>
    by_cases h : hd.1 = k
    · simp [regSet, regFind, h]
    · simp [regSet, regFind, h, ih]

theorem regFind_regSet_ne (reg : Registry) (k k' : String) (p : SigilPayloadLoose)
    (h : k' ≠ k) : regFind (regSet reg k p) k' = regFind reg k' := by
  induction reg with
  | nil => simp [regSet, regFind, h, Ne.symm h]
  | cons hd tl ih =>
    by_cases hk : hd.1 = k
    · simp [regSet, regFind, hk, h, Ne.symm h]
    · by_cases hk' : hd.1 = k'
      · simp [regSet, regFind, hk, hk', h, Ne.symm h]
      · simp [regSet, regFind, hk, hk', ih]

theorem extract_payload_key_eq (url b : String) (hit : ExtractHit)
    (h : extract_payload_from_url url b = some hit) : hit.url_key = url := by
  unfold extract_payload_from_url at h
  split at h
  · split at h
    · cases h
      rfl
    · cases h
  · cases h

/-- Both provenance fields of `q` agree with `p` wherever `p`'s field is a
non-empty (truthy) string. -/
def fieldsPreserved (p q : SigilPayloadLoose) : Prop :=
  (optTruthy p.originUrl = true → q.originUrl = p.originUrl) ∧
  (optTruthy p.parentUrl = true → q.parentUrl = p.parentUrl)

theorem fieldsPreserved_refl (p : SigilPayloadLoose) : fieldsPreserved p p :=
  ⟨fun _ => rfl, fun _ => rfl⟩

theorem fieldsPreserved_trans {p q r : SigilPayloadLoose}
    (h1 : fieldsPreserved p q) (h2 : fieldsPreserved q r) : fieldsPreserved p r := by
  refine ⟨fun ht => ?_, fun ht => ?_⟩
  · have e1 := h1.1 ht
    have e2 := h2.1 (by rw [e1]; exact ht)
    rw [e2, e1]
  · have e1 := h1.2 ht
    have e2 := h2.2 (by rw [e1]; exact ht)
    rw [e2, e1]

theorem soft_patch_origin_keep (p : SigilPayloadLoose) (o pu : Option String)
    (h : optTruthy p.originUrl = true) :
    (soft_patch_topology p o pu).1.originUrl = p.originUrl := by
  simp only [soft_patch_topology, h]
  split <;> simp_all <;> split <;> simp_all

theorem soft_patch_parent_keep (p : SigilPayloadLoose) (o pu : Option String)
    (h : optTruthy p.parentUrl = true) :
    (soft_patch_topology p o pu).1.parentUrl = p.parentUrl := by
  simp only [soft_patch_topology]
  split <;> simp_all

theorem soft_patch_fieldsPreserved (p : SigilPayloadLoose) (o pu : Option String) :
    fieldsPreserved p (soft_patch_topology p o pu).1 :=
  ⟨fun h => soft_patch_origin_keep p o pu h, fun h => soft_patch_parent_keep p o pu h⟩

theorem patchInReg_inv (reg : Registry) (k2 : String) (o pu : Option String)
    (k : String) (p : SigilPayloadLoose) (h : regFind reg k = some p) :
    ∃ q, regFind (patchInReg reg k2 o pu).1 k = some q ∧ fieldsPreserved p q := by
  unfold patchInReg
  cases hfind : regFind reg k2 with
  | none => exact ⟨p, by simpa using h, fieldsPreserved_refl p⟩
  | some p2 =>
    by_cases hch : (soft_patch_topology p2 o pu).2 = true
    · by_cases hk : k = k2
      · subst hk
        have hp : p2 = p := by rw [h] at hfind; cases hfind; rfl
        subst hp
        refine ⟨(soft_patch_topology p2 o pu).1, ?_, soft_patch_fieldsPreserved p2 o pu⟩
        simp [hch, regFind_regSet_self]
      · refine ⟨p, ?_, fieldsPreserved_refl p⟩
        simp [hfind, hch, regFind_regSet_ne reg k2 k _ hk, h]
    · refine ⟨p, ?_, fieldsPreserved_refl p⟩
      simp [hfind, hch, h]

theorem ensureReg_inv (base : String) (reg : Registry) (u : String)
    (k : String) (p : SigilPayloadLoose) (h : regFind reg k = some p) :
    regFind (ensureReg base reg u).1 k = some p := by
  unfold ensureReg
  cases hfind : regFind reg u with
  | some _ => simpa using h
  | none =>
    cases hx : extract_payload_from_url u base with
    | none => simpa using h
    | some hit =>
      have hkey := extract_payload_key_eq u base hit hx
      have hne : k ≠ hit.url_key := by
        intro he
        rw [hkey] at he
        rw [he, hfind] at h
        cases h
      simp [regFind_regSet_ne reg hit.url_key k _ hne, h]

theorem ensurePatch_inv (base : String) (reg : Registry) (k2 : String)
    (o pu : Option String) (k : String) (p : SigilPayloadLoose)
    (h : regFind reg k = some p) :
    ∃ q, regFind (ensurePatch base reg k2 o pu).1 k = some q ∧ fieldsPreserved p q := by
  unfold ensurePatch
  exact patchInReg_inv _ k2 o pu k p (ensureReg_inv base reg k2 k p h)

theorem synthPairsLoop_inv (base origin : String) (pairs : List (String × String)) :
    ∀ (reg : Registry) (c : Nat) (k : String) (p : SigilPayloadLoose),
      regFind reg k = some p →
      ∃ q, regFind (synthPairsLoop base origin (reg, c) pairs).1 k = some q ∧
        fieldsPreserved p q := by
  induction pairs with
  | nil => intro reg c k p h; exact ⟨p, h, fieldsPreserved_refl p⟩
  | cons pr rest ih =>
    intro reg c k p h
    obtain ⟨q, hq, hpq⟩ := ensurePatch_inv base reg pr.2 (some origin) (some pr.1) k p h
    obtain ⟨r, hr, hqr⟩ := ih _ _ k q hq
    exact ⟨r, hr, fieldsPreserved_trans hpq hqr⟩

/-- C1 core: witness synthesis preserves every truthy provenance field of
every payload already in the registry. -/
theorem synthesize_fieldsPreserved (chain : List String) (leaf_url : String)
    (reg : Registry) (base : String) (k : String) (p : SigilPayloadLoose)
    (h : regFind reg k = some p) :
    ∃ q, regFind (synthesize_edges_from_witness_chain chain leaf_url reg base).1 k = some q ∧
      fieldsPreserved p q := by
  unfold synthesize_edges_from_witness_chain
  split
  · exact ⟨p, h, fieldsPreserved_refl p⟩
  split
  · exact ⟨p, h, fieldsPreserved_refl p⟩
  next origin rest heq =>
    split
    · exact ⟨p, h, fieldsPreserved_refl p⟩
    next leaf_abs hleaf =>
      dsimp only
      obtain ⟨q, hq, hpq⟩ :=
        ensurePatch_inv base reg origin (some origin) none k p h
      obtain ⟨r, hr, hqr⟩ :=
        synthPairsLoop_inv base origin (chainPairs (origin :: rest)) _ 0 k q hq
      obtain ⟨s, hs, hrs⟩ :=
        ensurePatch_inv base _ leaf_abs (some origin)
          (some ((origin :: rest).getLast (List.cons_ne_nil _ _))) k r hr
      exact ⟨s, hs, fieldsPreserved_trans (fieldsPreserved_trans hpq hqr) hrs⟩

/-- C1: witness synthesis never overwrites a non-empty `originUrl` or
`parentUrl`: for every payload already in the registry whose field holds a
non-empty string, the field's value is unchanged after
`synthesize_edges_from_witness_chain`, for any chain, leaf URL and base
origin. -/
theorem witness_synthesis_never_overwrites (chain : List String) (leaf_url : String)
    (reg : Registry) (base : String) (k : String) (p : SigilPayloadLoose)
    (h : regFind reg k = some p) :
    ∃ q, regFind (synthesize_edges_from_witness_chain chain leaf_url reg base).1 k = some q ∧
      (∀ s : String, p.originUrl = some s → s ≠ "" → q.originUrl = some s) ∧
      (∀ s : String, p.parentUrl = some s → s ≠ "" → q.parentUrl = some s) := by
  obtain ⟨q, hq, hpq⟩ := synthesize_fieldsPreserved chain leaf_url reg base k p h
  refine ⟨q, hq, fun s hs hne => ?_, fun s hs hne => ?_⟩
  all_goals
    have hfalse : s.isEmpty = false := by
      cases hb : s.isEmpty
      · rfl
      · exact absurd ((String.isEmpty_iff s).mp hb) hne
  · have ht : optTruthy p.originUrl = true := by simp [hs, optTruthy, hfalse]
    rw [hpq.1 ht, hs]
  · have ht : optTruthy p.parentUrl = true := by simp [hs, optTruthy, hfalse]
    rw [hpq.2 ht, hs]

/-- Concrete instance of `witness_synthesis_never_overwrites`: an entry with
explicit provenance keeps it when a chain implying a different parent is
synthesized onto it. -/
theorem witness_synthesis_never_overwrites_witness :
    ∃ q, regFind (synthesize_edges_from_witness_chain ["https://x.test/b"] "https://x.test/u"
        [("https://x.test/u",
          { pulse := 1, originUrl := some "https://x.test/o",
            parentUrl := some "https://x.test/a" })] "https://x.test").1
        "https://x.test/u" = some q ∧
      (∀ s : String,
        ({ pulse := 1, originUrl := some "https://x.test/o",
           parentUrl := some "https://x.test/a" } : SigilPayloadLoose).originUrl = some s →
          s ≠ "" → q.originUrl = some s) ∧
      (∀ s : String,
        ({ pulse := 1, originUrl := some "https://x.test/o",
           parentUrl := some "https://x.test/a" } : SigilPayloadLoose).parentUrl = some s →
          s ≠ "" → q.parentUrl = some s) :=
  witness_synthesis_never_overwrites ["https://x.test/b"] "https://x.test/u" _ "https://x.test"
    "https://x.test/u" _ (by rfl)

/-! ## C6: chain deduplication and cap -/

/-- The uncapped witness pipeline: canonicalize the URL, extract the `add=`
values and run the dedup loop, with no 512 cap applied. -/
def witnessDedupFull (url base_origin : String) : List String :=
  match canonicalize_url url base_origin with
  | none => []
  | some abs_url => witnessLoop base_origin (extract_add_values_from_url abs_url) []

theorem extract_witness_chain_eq_cap (url base : String) :
    extract_witness_chain_from_url url base =
      (if (witnessDedupFull url base).length > WITNESS_ADD_MAX then
        (witnessDedupFull url base).drop ((witnessDedupFull url base).length - WITNESS_ADD_MAX)
      else witnessDedupFull url base) := by
  unfold extract_witness_chain_from_url witnessDedupFull
  cases canonicalize_url url base <;> simp

theorem witnessLoop_nodup (base : String) (raws : List String) :
    ∀ out : List String, out.Nodup → (witnessLoop base raws out).Nodup := by
  induction raws with
  | nil => intro out h; simpa [witnessLoop] using h
  | cons raw rest ih =>
    intro out h
    cases hp : processAdd base raw with
    | none => simpa [witnessLoop, hp] using ih out h
    | some link =>
      by_cases hmem : link ∈ out
      · simpa [witnessLoop, hp, hmem] using ih out h
      · have hnd : (out ++ [link]).Nodup := by
          simp [List.nodup_append, h, hmem]
        simpa [witnessLoop, hp, hmem] using ih _ hnd

/-- C6: the extracted witness chain has no duplicates, is a suffix of the
uncapped deduplicated sequence (tail kept, front dropped, order
preserved), and its length is the length of that sequence capped at
`WITNESS_ADD_MAX = 512`. -/
theorem witness_chain_nodup_and_cap (url base : String) :
    (extract_witness_chain_from_url url base).Nodup ∧
    (extract_witness_chain_from_url url base).length ≤ WITNESS_ADD_MAX ∧
    extract_witness_chain_from_url url base <:+ witnessDedupFull url base ∧
    (extract_witness_chain_from_url url base).length =
      min (witnessDedupFull url base).length WITNESS_ADD_MAX := by
  have hd : (witnessDedupFull url base).Nodup := by
    unfold witnessDedupFull
    cases canonicalize_url url base with
    | none => simp
    | some abs_url => exact witnessLoop_nodup base _ [] (by simp)
  rw [extract_witness_chain_eq_cap]
  by_cases hlen : (witnessDedupFull url base).length > WITNESS_ADD_MAX
  · refine ⟨?_, ?_, ?_, ?_⟩
    · simp only [hlen, if_true]
      exact hd.sublist (List.drop_sublist _ _)
    · simp only [hlen, if_true, List.length_drop]
      omega
    · simp only [hlen, if_true]
      exact List.drop_suffix _ _
    · simp only [hlen, if_true, List.length_drop]
      omega
  · refine ⟨?_, ?_, ?_, ?_⟩
    · simpa [hlen] using hd
    · simp only [hlen, if_false]
      omega
    · simp only [hlen, if_false]
      exact List.suffix_refl _
    · simp only [hlen, if_false]
      omega

/-! ## C7: processing order of add= values -/

/-- Deduplication keeping the first occurrence of each element, preserving
order. -/
def dedupFirstSeen (links : List String) : List String :=
  links.foldl (fun out l => if l ∈ out then out else out ++ [l]) []

/-- Keep the last `n` entries of a list (drop from the front) when it is
longer than `n`. -/
def capAt (n : Nat) (l : List String) : List String :=
  if l.length > n then l.drop (l.length - n) else l

theorem witnessLoop_eq_foldl (base : String) (raws : List String) :
    ∀ out, witnessLoop base raws out =
      (raws.filterMap (processAdd base)).foldl
        (fun out l => if l ∈ out then out else out ++ [l]) out := by
  induction raws with
  | nil => intro out; simp [witnessLoop]
  | cons raw rest ih =>
    intro out
    cases hp : processAdd base raw with
    | none => simp [witnessLoop, hp, ih]
    | some link => simp [witnessLoop, hp, ih]

/-- C7: the witness chain processes `add=` values in query-then-fragment
order; each raw value is decoded best-effort, rewritten to
`/stream/p/<token>` when it is a bare token, canonicalized (that pipeline is
`processAdd`), values that fail are skipped (`filterMap`), the result is
deduplicated in first-seen order and capped; a URL that fails to
canonicalize yields the empty chain. -/
theorem witness_chain_processing_order (url base : String) :
    (canonicalize_url url base = none → extract_witness_chain_from_url url base = []) ∧
    (∀ abs_url, canonicalize_url url base = some abs_url →
      extract_witness_chain_from_url url base =
        capAt WITNESS_ADD_MAX (dedupFirstSeen
          (((qsValuesAdd (urlQuery abs_url) ++
             (if fragParams abs_url = "" then [] else qsValuesAdd (fragParams abs_url))).filter
               (fun a => !a.isEmpty && !(strTrim a).isEmpty)).filterMap (processAdd base)))) := by
  constructor
  · intro h
    simp [extract_witness_chain_from_url, h]
  · intro abs_url h
    simp only [extract_witness_chain_from_url, h, extract_add_values_from_url,
      capAt, dedupFirstSeen]
    rw [witnessLoop_eq_foldl]

/-- Concrete instance of `witness_chain_processing_order`: a URL with two
query `add=` values and one fragment `add=` value. -/
theorem witness_chain_processing_order_witness :
    extract_witness_chain_from_url "https://x.test/u?add=tok1&add=%2Fa%2Fb#add=tok2"
        "https://x.test" =
      capAt WITNESS_ADD_MAX (dedupFirstSeen
        (((qsValuesAdd (urlQuery "https://x.test/u?add=tok1&add=%2Fa%2Fb#add=tok2") ++
           (if fragParams "https://x.test/u?add=tok1&add=%2Fa%2Fb#add=tok2" = "" then []
            else qsValuesAdd (fragParams "https://x.test/u?add=tok1&add=%2Fa%2Fb#add=tok2"))).filter
             (fun a => !a.isEmpty && !(strTrim a).isEmpty)).filterMap
          (processAdd "https://x.test"))) :=
  (witness_chain_processing_order "https://x.test/u?add=tok1&add=%2Fa%2Fb#add=tok2"
    "https://x.test").2 _ (by rfl)

/-! ## `app/models/state.py` and `get_state` -/

/-- `KaiMoment` from `app/models/state.py`. -/
structure KaiMoment where
  pulse : Nat := 0
  beat : Nat := 0
  stepIndex : Nat := 0
deriving Repr

/-- `SigilEntry` from `app/models/state.py`: one registry entry with
top-level convenience fields and the full payload. -/
structure SigilEntry where
  url : String
  pulse : Nat := 0
  beat : Nat := 0
  stepIndex : Nat := 0
  chakraDay : Option String := none
  userPhiKey : Option String := none
  kaiSignature : Option String := none
  payload : SigilPayloadLoose
deriving Repr

/-- `SigilState` from `app/models/state.py`. -/
structure SigilState where
  spec : String := "KKS-1.0"
  total_urls : Nat := 0
  latest : KaiMoment := {}
  registry : List SigilEntry := []
  urls : List String := []
deriving Repr

/-- The logical-clock tuple of the payload stored at a key ((0,0,0) when
absent); used by the export ordering. -/
def tupleAt (reg : Registry) (u : String) : KaiTup :=
  match regFind reg u with
  | some p => kaiTuple p
  | none => (0, 0, 0)

/-- Modelled from the spec: the export order of `build_ordered_urls` from
`app/core/merge_engine.py` (not under `src/`): `u` precedes `v` when `u`'s
tuple is strictly greater, or the tuples are equal and `u ≤ v` as
strings. -/
def ordRel (reg : Registry) (u v : String) : Prop :=
  (kaiGE (tupleAt reg u) (tupleAt reg v) = true ∧ tupleAt reg u ≠ tupleAt reg v) ∨
    (tupleAt reg u = tupleAt reg v ∧ u ≤ v)

instance (reg : Registry) : DecidableRel (ordRel reg) := fun u v => by
  unfold ordRel; infer_instance

/-- Modelled from the spec: `build_ordered_urls` from
`app/core/merge_engine.py` (not under `src/`): all registry keys sorted
Kai-descending, ties broken by ascending URL string. -/
def build_ordered_urls (reg : Registry) : List String :=
  (regKeys reg).insertionSort (ordRel reg)

/-- Modelled from the spec: `latest_kai` from `app/core/kai_time.py` (not
under `src/`): the maximum logical-clock tuple of a set of payloads,
`(0,0,0)` for the empty set. -/
def latest_kai (ps : List SigilPayloadLoose) : KaiTup :=
  ps.foldl (fun m p => if kaiGE (kaiTuple p) m then kaiTuple p else m) (0, 0, 0)

/-- `_pick_str` from `app/core/state_store.py`: the first non-blank string
among the candidates, stripped. -/
def pick_str (vals : List (Option String)) : Option String :=
  match vals with
  | [] => none
  | v :: rest =>
    match v with
    | some s => if strTrim s ≠ "" then some (strTrim s) else pick_str rest
    | none => pick_str rest

/-- Lookup in the payload's open extension map (the model of
`model_dump`'s extra keys), keeping only string values as `_pick_str`'s
`isinstance(v, str)` does. -/
def payloadExtraStr (p : SigilPayloadLoose) (k : String) : Option String :=
  match (p.extras.find? (fun kv => kv.1 = k)).map (·.2) with
  | some (Json.str s) => some s
  | _ => none

/-- `_extract_chakra_day` from `app/core/state_store.py`. -/
def extract_chakra_day (p : SigilPayloadLoose) : Option String :=
  pick_str [p.chakraDay, payloadExtraStr p "c"]

/-- `_extract_user_phikey` from `app/core/state_store.py`. -/
def extract_user_phikey (p : SigilPayloadLoose) : Option String :=
  pick_str [p.userPhiKey, payloadExtraStr p "phiKey", payloadExtraStr p "phikey"]

/-- `_extract_kai_signature` from `app/core/state_store.py`. -/
def extract_kai_signature (p : SigilPayloadLoose) : Option String :=
  pick_str [p.kaiSignature]

/-- `SigilStateStore.get_state` from `app/core/state_store.py`: EXHALE the
full registry, Kai-ordered, with convenience fields per entry. -/
def get_state (reg : Registry) : SigilState :=
  let ordered_urls := build_ordered_urls reg
  let entries := ordered_urls.filterMap fun url =>
    (regFind reg url).map fun p =>
      { url := url, pulse := p.pulse, beat := p.beat, stepIndex := p.stepIndex
        chakraDay := extract_chakra_day p, userPhiKey := extract_user_phikey p
        kaiSignature := extract_kai_signature p, payload := p }
  let payloads := ordered_urls.filterMap (regFind reg)
  let latest : KaiMoment :=
    if payloads.isEmpty then { pulse := 0, beat := 0, stepIndex := 0 }
    else { pulse := (latest_kai payloads).1, beat := (latest_kai payloads).2.1
           stepIndex := (latest_kai payloads).2.2 }
  { spec := "KKS-1.0", total_urls := entries.length, latest := latest
    registry := entries, urls := entries.map (·.url) }

/-- C8: the snapshot is internally consistent: `urls` is exactly the
sequence of `url` fields of the `registry` entries in the same order, and
`total_urls` is the number of `registry` entries. -/
theorem get_state_consistent (reg : Registry) :
    (get_state reg).urls = (get_state reg).registry.map (·.url) ∧
    (get_state reg).total_urls = (get_state reg).registry.length := by
  constructor <;> rfl

/-! ## Modelled merge engine (`app/core/merge_engine.py`, not under `src/`) -/

/-- Modelled from the spec: the outcome of `loads_json_bytes` from
`app/core/jsonio.py` (not under `src/`) on one uploaded blob: either the
decoded JSON value or a parse failure. -/
inductive Blob where
  | wellFormed (j : Json)
  | malformed (msg : String)

/-- `InhaleReport` from `app/models/state.py`. -/
structure InhaleReport where
  crystals_total : Nat := 0
  crystals_imported : Nat := 0
  crystals_failed : Nat := 0
  registry_urls : Nat := 0
  latest_pulse : Option Nat := none
  errors : List String := []
deriving Repr

/-- A syntactically valid candidate record: canonical key and payload. -/
structure Cand where
  key : String
  payload : SigilPayloadLoose
deriving Repr

/-- Lookup of a field in a JSON object's key/value list. -/
def jsonGet (kvs : List (String × Json)) (k : String) : Option Json :=
  (kvs.find? (fun kv => kv.1 = k)).map (·.2)

/-- Clock-field coercion: a non-negative JSON integer, all else 0
(the spec's "default 0 if absent/invalid"). -/
def jsonNat : Option Json → Nat
  | some (Json.num n) => if n < 0 then 0 else n.toNat
  | _ => 0

/-- A JSON string value, all else `none`. -/
def jsonStrOpt : Option Json → Option String
  | some (Json.str s) => some s
  | _ => none

/-- The known payload fields; everything else is opaque extension data. -/
def knownKeys : List String :=
  ["pulse", "beat", "stepIndex", "chakraDay", "userPhiKey", "kaiSignature",
   "originUrl", "parentUrl"]

/-- Modelled from the spec: building a `SigilPayloadLoose` from a JSON
record object: clock fields coerced with default 0, optional string
fields, all unrecognized fields preserved verbatim as extras. -/
def payload_of_obj (kvs : List (String × Json)) : SigilPayloadLoose :=
  { pulse := jsonNat (jsonGet kvs "pulse")
    beat := jsonNat (jsonGet kvs "beat")
    stepIndex := jsonNat (jsonGet kvs "stepIndex")
    chakraDay := jsonStrOpt (jsonGet kvs "chakraDay")
    userPhiKey := jsonStrOpt (jsonGet kvs "userPhiKey")
    kaiSignature := jsonStrOpt (jsonGet kvs "kaiSignature")
    originUrl := jsonStrOpt (jsonGet kvs "originUrl")
    parentUrl := jsonStrOpt (jsonGet kvs "parentUrl")
    extras := kvs.filter (fun kv => !(knownKeys.contains kv.1)) }

/-- Modelled from the spec: `SigilPayloadLoose.model_validate`: any JSON
object validates (loose schema); anything else fails. -/
def model_validate (j : Json) : Option SigilPayloadLoose :=
  match j with
  | Json.obj kvs => some (payload_of_obj kvs)
  | _ => none

/-- Modelled from the spec: one candidate record: its canonical URL key is
the explicit `url` (else `originUrl`) field canonicalized against the base
origin; no valid key means the record is rejected. -/
def candidate_of_json (base : String) (j : Json) : Option Cand :=
  match j with
  | Json.obj kvs =>
    let rawUrl :=
      match jsonStrOpt (jsonGet kvs "url") with
      | some s => some s
      | none => jsonStrOpt (jsonGet kvs "originUrl")
    match rawUrl with
    | none => none
    | some r =>
      match canonicalize_url r base with
      | none => none
      | some k => some { key := k, payload := payload_of_obj kvs }
  | _ => none

/-- The records carried by one uploaded blob: a single object, or each
element of an array; `none` for malformed JSON or wrong top-level shape. -/
def fileRecords : Blob → Option (List Json)
  | Blob.malformed _ => none
  | Blob.wellFormed (Json.arr xs) => some xs
  | Blob.wellFormed (Json.obj kvs) => some [Json.obj kvs]
  | Blob.wellFormed _ => none

/-- Accumulated result of parsing a batch: valid candidates in order, the
candidate counts and the diagnostics. -/
structure ParsedBatch where
  cands : List Cand := []
  total : Nat := 0
  failed : Nat := 0
  errors : List String := []

/-- Modelled from the spec: parsing one named blob: a parse failure is one
failed placeholder; each record either yields a candidate or a failure,
never aborting the batch. -/
def parseFile (base : String) (name : String) (b : Blob) : ParsedBatch :=
  match fileRecords b with
  | none => { total := 1, failed := 1, errors := [name ++ ": unreadable or wrong shape"] }
  | some recs =>
    recs.foldl
      (fun acc r =>
        match candidate_of_json base r with
        | some c => { acc with cands := acc.cands ++ [c], total := acc.total + 1 }
        | none =>
          { acc with
            total := acc.total + 1
            failed := acc.failed + 1
            errors := acc.errors ++ [name ++ ": invalid record"] })
      {}

/-- Modelled from the spec: parsing a whole batch of named blobs. -/
def parseBatch (base : String) (files : List (String × Blob)) : ParsedBatch :=
  files.foldl
    (fun acc f =>
      let pb := parseFile base f.1 f.2
      { cands := acc.cands ++ pb.cands, total := acc.total + pb.total,
        failed := acc.failed + pb.failed, errors := acc.errors ++ pb.errors })
    {}

/-- Modelled from the spec: conflict resolution for one candidate: insert
at an absent key; at an existing key the incoming record replaces the
stored one iff its logical-clock tuple is lexicographically
greater-or-equal. -/
def applyCand (reg : Registry) (c : Cand) : Registry :=
  match regFind reg c.key with
  | none => regSet reg c.key c.payload
  | some stored =>
    if kaiGE (kaiTuple c.payload) (kaiTuple stored) then regSet reg c.key c.payload else reg

/-- Applying all candidates of a batch in order. -/
def mergePhase (reg : Registry) (cands : List Cand) : Registry :=
  cands.foldl applyCand reg

/-- Modelled from the spec: after the merge, the witness synthesizer runs
once per successfully-merged record's canonical URL, feeding its extracted
chain into `synthesize_edges_from_witness_chain`. -/
def synthPhase (base : String) (reg : Registry) (urls : List String) : Registry :=
  urls.foldl
    (fun r u =>
      (synthesize_edges_from_witness_chain (extract_witness_chain_from_url u base) u r base).1)
    reg

/-- Maximum pulse across the registry, `none` when empty. -/
def latestPulse (reg : Registry) : Option Nat :=
  match reg with
  | [] => none
  | kv :: rest => some (rest.foldl (fun m x => max m x.2.pulse) kv.2.pulse)

/-- Modelled from the spec: `inhale_files_into_registry` from
`app/core/merge_engine.py` (not under `src/`): parse the batch, merge the
candidates, run witness synthesis per merged record, and build the
report. -/
def inhale_files_into_registry (reg : Registry) (files : List (String × Blob))
    (base : String) : Registry × InhaleReport :=
  let pb := parseBatch base files
  let r1 := mergePhase reg pb.cands
  let r2 := synthPhase base r1 (pb.cands.map (·.key))
  (r2,
   { crystals_total := pb.total, crystals_imported := pb.cands.length,
     crystals_failed := pb.failed, registry_urls := r2.length,
     latest_pulse := latestPulse r2, errors := pb.errors })

/-- Modelled from the spec: the seal: a stable fingerprint of the ordered
URL list (canonical-JSON encode then hash); modelled as a 64-bit rolling
hash of the canonical concatenation. -/
def sealUrls (urls : List String) : Nat :=
  (urls.foldl (fun acc u => acc ++ u.data ++ ['\n']) []).foldl
    (fun h c => (h * 131 + c.toNat) % (2 ^ 64)) 0

/-! ## `app/core/state_store.py`: persistence and the store -/

/-- The outcome of the disk write performed by `_save_to_disk` /
`_atomic_write_text`: success, or an I/O failure (Python exception). -/
inductive SaveOutcome where
  | ok
  | err (msg : String)

/-- The mutable state of a `SigilStateStore`. -/
structure StoreState where
  base_origin : String
  registry : Registry

/-- `SigilStateStore.inhale_files` from `app/core/state_store.py`: merge
under the lock, then persist with no exception handler — the registry
mutation is kept either way, and a failing save propagates as an
exception (`Except.error`) instead of returning the report. -/
def inhale_files (st : StoreState) (files : List (String × Blob)) (save : SaveOutcome) :
    StoreState × Except String InhaleReport :=
  let mr := inhale_files_into_registry st.registry files st.base_origin
  let st' := { st with registry := mr.1 }
  match save with
  | SaveOutcome.ok => (st', Except.ok mr.2)
  | SaveOutcome.err m => (st', Except.error m)

/-- The `{"registry": {...}}` shape test of `_load_from_disk`. -/
def registryShape (j : Json) : Option (List (String × Json)) :=
  match j with
  | Json.obj kvs =>
    match jsonGet kvs "registry" with
    | some (Json.obj rkvs) => some rkvs
    | _ => none
  | _ => none

/-- The entry-by-entry adoption loop of `_load_from_disk`: skip blank keys
and entries that fail validation, never abort. -/
def adoptRegistry (rkvs : List (String × Json)) : Registry :=
  rkvs.foldl
    (fun acc kv =>
      if (strTrim kv.1).isEmpty then acc
      else
        match model_validate kv.2 with
        | some p => regSet acc (strTrim kv.1) p
        | none => acc)
    []

/-- `SigilStateStore._load_from_disk` from `app/core/state_store.py`.
`primary` is the parse outcome of the file at `persist_path` (`none` for
unreadable or invalid JSON); the source reads no other file, so the
`_backup` argument (the parse outcome of a hypothetical `.bak` sibling) is
never consulted. A registry-shaped object is adopted entry-by-entry; any
other JSON value is re-ingested through the inhale engine; a parse failure
yields the empty registry. -/
def load_from_disk (primary : Option Json) (_backup : Option Json) (base : String) : Registry :=
  match primary with
  | none => []
  | some obj =>
    match registryShape obj with
    | some rkvs => adoptRegistry rkvs
    | none => (inhale_files_into_registry [] [("disk", Blob.wellFormed obj)] base).1

/-! ## C2: conflict resolution -/

/-- C2: at an existing key the incoming record replaces the stored one iff
its tuple is lexicographically greater-or-equal; and concretely, uploading
records at the same URL with tuples (1,0,0) and (2,0,0) in either order
across two batches leaves the (2,0,0) payload, with the strictly lesser
incoming record counted as imported, not failed. -/
theorem inhale_replaces_iff_ge :
    (∀ (reg : Registry) (c : Cand) (stored : SigilPayloadLoose),
        regFind reg c.key = some stored →
        regFind (applyCand reg c) c.key =
          (if kaiGE (kaiTuple c.payload) (kaiTuple stored) then some c.payload
           else some stored)) ∧
    ((regFind
        (inhale_files_into_registry
          (inhale_files_into_registry []
            [("f1.json", Blob.wellFormed (Json.obj [("url", Json.str "https://x.test/u"),
                ("pulse", Json.num 1)]))] "https://x.test").1
          [("f2.json", Blob.wellFormed (Json.obj [("url", Json.str "https://x.test/u"),
              ("pulse", Json.num 2)]))] "https://x.test").1
        "https://x.test/u").map kaiTuple = some (2, 0, 0) ∧
     (regFind
        (inhale_files_into_registry
          (inhale_files_into_registry []
            [("f2.json", Blob.wellFormed (Json.obj [("url", Json.str "https://x.test/u"),
                ("pulse", Json.num 2)]))] "https://x.test").1
          [("f1.json", Blob.wellFormed (Json.obj [("url", Json.str "https://x.test/u"),
              ("pulse", Json.num 1)]))] "https://x.test").1
        "https://x.test/u").map kaiTuple = some (2, 0, 0) ∧
     (inhale_files_into_registry
        (inhale_files_into_registry []
          [("f2.json", Blob.wellFormed (Json.obj [("url", Json.str "https://x.test/u"),
              ("pulse", Json.num 2)]))] "https://x.test").1
        [("f1.json", Blob.wellFormed (Json.obj [("url", Json.str "https://x.test/u"),
            ("pulse", Json.num 1)]))] "https://x.test").2.crystals_imported = 1 ∧
     (inhale_files_into_registry
        (inhale_files_into_registry []
          [("f2.json", Blob.wellFormed (Json.obj [("url", Json.str "https://x.test/u"),
              ("pulse", Json.num 2)]))] "https://x.test").1
        [("f1.json", Blob.wellFormed (Json.obj [("url", Json.str "https://x.test/u"),
            ("pulse", Json.num 1)]))] "https://x.test").2.crystals_failed = 0) := by
  constructor
  · intro reg c stored h
    unfold applyCand
    rw [h]
    by_cases hge : kaiGE (kaiTuple c.payload) (kaiTuple stored) = true
    · simp [hge, regFind_regSet_self]
    · simp [hge, h]
  · refine ⟨by decide, by decide, by decide, by decide⟩

/-- Concrete instance of the replace-iff-greater-or-equal rule: a strictly
lesser incoming tuple leaves the stored payload in place. -/
theorem inhale_replaces_iff_ge_witness :
    regFind
        (applyCand [("https://x.test/u", { pulse := 2 : SigilPayloadLoose })]
          { key := "https://x.test/u", payload := { pulse := 1 } })
        "https://x.test/u" =
      (if kaiGE (kaiTuple { pulse := 1 : SigilPayloadLoose })
            (kaiTuple { pulse := 2 : SigilPayloadLoose }) then
         some { pulse := 1 : SigilPayloadLoose }
       else some { pulse := 2 : SigilPayloadLoose }) :=
  inhale_replaces_iff_ge.1 [("https://x.test/u", { pulse := 2 })]
    { key := "https://x.test/u", payload := { pulse := 1 } } { pulse := 2 } (by rfl)

/-! ## C3: persistence failure behavior -/

/-- C3 counterexample: with a failing disk write, `inhale_files` does not
return its merge report; the exception propagates to the caller
(`Except.error`), refuting "returns its merge report normally without
raising". -/
theorem inhale_files_save_failure_raises_cex :
    (inhale_files { base_origin := "https://x.test", registry := [] }
        [("f1.json", Blob.wellFormed (Json.obj [("url", Json.str "https://x.test/u"),
            ("pulse", Json.num 1)]))]
        (SaveOutcome.err "disk full")).2 = Except.error "disk full" := by
  rfl

/-- C3 amended: a persistence failure propagates as an exception out of
`inhale_files` (it is caught only by the API layer), but the in-memory
registry keeps the merged result — the merge is never rolled back. -/
theorem inhale_files_save_failure_keeps_merge (st : StoreState)
    (files : List (String × Blob)) (msg : String) :
    (inhale_files st files (SaveOutcome.err msg)).2 = Except.error msg ∧
    (inhale_files st files (SaveOutcome.err msg)).1.registry =
      (inhale_files_into_registry st.registry files st.base_origin).1 := by
  constructor <;> rfl

/-! ## C4: load behavior -/

/-- C4 counterexample: with an invalid primary file and a valid backup
holding one entry, the registry after load is empty, not the backup's
registry: the loader never consults a backup. The same JSON consulted as
the primary would yield a non-empty registry. -/
theorem load_ignores_backup_cex :
    load_from_disk none
        (some (Json.obj [("registry",
          Json.obj [("https://x.test/u", Json.obj [("pulse", Json.num 1)])])]))
        "https://x.test" = [] ∧
    load_from_disk
        (some (Json.obj [("registry",
          Json.obj [("https://x.test/u", Json.obj [("pulse", Json.num 1)])])]))
        none "https://x.test" =
      [("https://x.test/u", payload_of_obj [("pulse", Json.num 1)])] := by
  constructor <;> rfl

/-- C4 amended: whenever the primary persisted file is unreadable or holds
invalid JSON, the registry after load is empty regardless of any backup
file (no backup is ever consulted), and no error is raised (the loader is
total). -/
theorem load_from_disk_fail_closed (backup : Option Json) (base : String) :
    load_from_disk none backup base = [] := by
  rfl

/-! ## C10: patch operations never mutate the payload object passed in

The pure embedding above cannot distinguish mutation from copying, so the
two patch functions are additionally given a heap-level embedding: payload
objects live in a heap, references are indices, `model_validate(model_dump())`
is a fresh allocation, and a field assignment mutates the object behind a
reference in place — exactly the operations the Python source performs. -/

/-- A heap of payload objects; a reference is an index into it. -/
abbrev PayloadHeap := List SigilPayloadLoose

/-- A reference to a payload object. -/
abbrev PayloadRef := Nat

/-- `model_validate(model_dump(p))`: allocate a fresh object with the same
fields; returns the new heap and the fresh reference. -/
def halloc (h : PayloadHeap) (p : SigilPayloadLoose) : PayloadHeap × PayloadRef :=
  (h ++ [p], h.length)

/-- `obj.originUrl = v`: in-place field assignment on the object behind
`r`. -/
def hsetOrigin (h : PayloadHeap) (r : PayloadRef) (v : Option String) : PayloadHeap :=
  match h[r]? with
  | some p => h.set r { p with originUrl := v }
  | none => h

/-- `obj.parentUrl = v`: in-place field assignment on the object behind
`r`. -/
def hsetParent (h : PayloadHeap) (r : PayloadRef) (v : Option String) : PayloadHeap :=
  match h[r]? with
  | some p => h.set r { p with parentUrl := v }
  | none => h

/-- First fill of heap-level `_soft_patch_topology`: when `originUrl` is
truthy and the object's field is not, allocate the fresh copy
(`model_validate(model_dump())`) and mutate its `originUrl`; otherwise the
result is still the aliased input object and `changed` is false. -/
def soft_patch_heap_step1 (h : PayloadHeap) (r : PayloadRef) (p : SigilPayloadLoose)
    (originUrl : Option String) : PayloadHeap × PayloadRef × Bool :=
  if optTruthy originUrl && !(optTruthy p.originUrl) then
    (hsetOrigin (h ++ [p]) h.length originUrl, h.length, true)
  else (h, r, false)

/-- Second fill of heap-level `_soft_patch_topology`: when `parentUrl` is
truthy and the current object's field is not, mutate in place when a copy
was already made, else allocate the copy first and mutate it. -/
def soft_patch_heap_step2 (s1 : PayloadHeap × PayloadRef × Bool)
    (parentUrl : Option String) : PayloadHeap × PayloadRef × Bool :=
  match s1.1[s1.2.1]? with
  | none => s1
  | some q =>
    if optTruthy parentUrl && !(optTruthy q.parentUrl) then
      if s1.2.2 then (hsetParent s1.1 s1.2.1 parentUrl, s1.2.1, true)
      else (hsetParent (s1.1 ++ [q]) s1.1.length parentUrl, s1.1.length, true)
    else s1

/-- Heap-level `_soft_patch_topology`: `next_p` starts as an alias of the
input object; a fresh copy is allocated before the first mutation and only
then. Returns (heap, reference to the result object, changed?). -/
def soft_patch_topology_heap (h : PayloadHeap) (r : PayloadRef)
    (originUrl parentUrl : Option String) : PayloadHeap × PayloadRef × Bool :=
  match h[r]? with
  | none => (h, r, false)
  | some p => soft_patch_heap_step2 (soft_patch_heap_step1 h r p originUrl) parentUrl

/-- The `parentUrl` fill of heap-level `merge_derived_context`, acting on
the freshly allocated copy behind `r1`. -/
def merge_ctx_heap_fill2 (h2 : PayloadHeap) (r1 : PayloadRef) (ctx : WitnessCtx) :
    PayloadHeap :=
  match h2[r1]? with
  | some q =>
    if optTruthy ctx.parentUrl && !(optTruthy q.parentUrl) then
      hsetParent h2 r1 ctx.parentUrl
    else h2
  | none => h2

/-- Heap-level `merge_derived_context`: unconditionally allocates the copy
(`model_validate(payload.model_dump())`), then fills missing fields on the
copy in place. Returns (heap, reference to the new payload). -/
def merge_derived_context_heap (h : PayloadHeap) (r : PayloadRef) (ctx : WitnessCtx) :
    PayloadHeap × PayloadRef :=
  match h[r]? with
  | none => (h, r)
  | some p =>
    (merge_ctx_heap_fill2
      (if optTruthy ctx.originUrl && !(optTruthy p.originUrl) then
        hsetOrigin (h ++ [p]) h.length ctx.originUrl
      else h ++ [p])
      h.length ctx, h.length)

theorem frame_alloc_set (h : PayloadHeap) (p q : SigilPayloadLoose) (r : PayloadRef)
    (hr : r < h.length) : ((h ++ [p]).set h.length q)[r]? = h[r]? := by
  rw [List.getElem?_set_ne (Nat.ne_of_gt hr)]
  exact List.getElem?_append_left hr

theorem hsetOrigin_frame (h : PayloadHeap) (i r : PayloadRef) (v : Option String)
    (hne : i ≠ r) : (hsetOrigin h i v)[r]? = h[r]? := by
  unfold hsetOrigin
  cases h[i]? with
  | none => rfl
  | some p => simp [List.getElem?_set_ne hne]

theorem hsetParent_frame (h : PayloadHeap) (i r : PayloadRef) (v : Option String)
    (hne : i ≠ r) : (hsetParent h i v)[r]? = h[r]? := by
  unfold hsetParent
  cases h[i]? with
  | none => rfl
  | some p => simp [List.getElem?_set_ne hne]

theorem hsetOrigin_length (h : PayloadHeap) (i : PayloadRef) (v : Option String) :
    (hsetOrigin h i v).length = h.length := by
  unfold hsetOrigin
  cases h[i]? <;> simp

theorem step1_frame (h : PayloadHeap) (r : PayloadRef) (p : SigilPayloadLoose)
    (o : Option String) (hr : r < h.length) :
    ((soft_patch_heap_step1 h r p o).1)[r]? = h[r]? ∧
    ((soft_patch_heap_step1 h r p o).2.2 = true →
      (soft_patch_heap_step1 h r p o).2.1 ≠ r) ∧
    ((soft_patch_heap_step1 h r p o).2.2 = false →
      soft_patch_heap_step1 h r p o = (h, r, false)) := by
  have hne : h.length ≠ r := Nat.ne_of_gt hr
  unfold soft_patch_heap_step1
  split
  · refine ⟨?_, fun _ => hne, fun hc => by simp at hc⟩
    unfold hsetOrigin
    cases hx : (h ++ [p])[h.length]? with
    | none => exact List.getElem?_append_left hr
    | some q => exact frame_alloc_set h _ _ r hr
  · exact ⟨rfl, fun hc => by simp at hc, fun _ => rfl⟩

theorem step2_frame (h : PayloadHeap) (r : PayloadRef)
    (s1 : PayloadHeap × PayloadRef × Bool) (pu : Option String) (hr : r < h.length)
    (hframe : s1.1[r]? = h[r]?)
    (href : s1.2.2 = true → s1.2.1 ≠ r)
    (hfalse : s1.2.2 = false → s1 = (h, r, false)) :
    ((soft_patch_heap_step2 s1 pu).1)[r]? = h[r]? ∧
    ((soft_patch_heap_step2 s1 pu).2.2 = true → (soft_patch_heap_step2 s1 pu).2.1 ≠ r) := by
  unfold soft_patch_heap_step2
  split
  · exact ⟨hframe, href⟩
  · split
    · cases hc : s1.2.2 with
      | true =>
        simp only [hc, eq_self_iff_true, if_true]
        exact ⟨by rw [hsetParent_frame _ _ _ _ (href hc), hframe], fun _ => href hc⟩
      | false =>
        have hs1 := hfalse hc
        subst hs1
        simp only [Bool.false_eq_true, if_false]
        refine ⟨?_, fun _ => Nat.ne_of_gt hr⟩
        rw [hsetParent_frame _ _ _ _ (Nat.ne_of_gt hr)]
        exact List.getElem?_append_left hr
    · exact ⟨hframe, href⟩

theorem soft_patch_heap_frame (h : PayloadHeap) (r : PayloadRef)
    (o pu : Option String) (hr : r < h.length) :
    ((soft_patch_topology_heap h r o pu).1)[r]? = h[r]? ∧
    ((soft_patch_topology_heap h r o pu).2.2 = true →
      (soft_patch_topology_heap h r o pu).2.1 ≠ r) := by
  unfold soft_patch_topology_heap
  cases hx : h[r]? with
  | none => exact ⟨hx, fun hc => by simp at hc⟩
  | some p =>
    obtain ⟨f1, f2, f3⟩ := step1_frame h r p o hr
    have h2 := step2_frame h r _ pu hr (by rw [f1, hx]) f2 f3
    rw [hx] at h2
    exact h2

theorem merge_ctx_heap_fill2_frame (h2 : PayloadHeap) (r r1 : PayloadRef)
    (ctx : WitnessCtx) (hne : r1 ≠ r) :
    (merge_ctx_heap_fill2 h2 r1 ctx)[r]? = h2[r]? := by
  unfold merge_ctx_heap_fill2
  cases h2[r1]? with
  | none => rfl
  | some q =>
    dsimp only
    by_cases hc : (optTruthy ctx.parentUrl && !(optTruthy q.parentUrl)) = true
    · rw [if_pos hc]
      exact hsetParent_frame _ _ _ _ hne
    · rw [if_neg hc]

theorem merge_derived_heap_frame (h : PayloadHeap) (r : PayloadRef) (ctx : WitnessCtx)
    (hr : r < h.length) :
    ((merge_derived_context_heap h r ctx).1)[r]? = h[r]? ∧
    (merge_derived_context_heap h r ctx).2 ≠ r := by
  have hne : h.length ≠ r := Nat.ne_of_gt hr
  unfold merge_derived_context_heap
  cases hx : h[r]? with
  | none =>
    rw [List.getElem?_eq_getElem hr] at hx
    cases hx
  | some p =>
    dsimp only
    refine ⟨?_, hne⟩
    rw [merge_ctx_heap_fill2_frame _ _ _ _ hne]
    split
    · rw [hsetOrigin_frame _ _ _ _ hne]
      rw [List.getElem?_append_left hr, hx]
    · rw [List.getElem?_append_left hr, hx]

/-- C10: the patch operations never mutate the payload object passed in:
after `_soft_patch_topology` or `merge_derived_context` (heap model), the
object behind the input reference is unchanged, and whenever a field was
filled the returned payload is a freshly constructed object, not the
input. -/
theorem patch_never_mutates_input (h : PayloadHeap) (r : PayloadRef)
    (o pu : Option String) (ctx : WitnessCtx) (hr : r < h.length) :
    ((soft_patch_topology_heap h r o pu).1)[r]? = h[r]? ∧
    ((soft_patch_topology_heap h r o pu).2.2 = true →
      (soft_patch_topology_heap h r o pu).2.1 ≠ r) ∧
    ((merge_derived_context_heap h r ctx).1)[r]? = h[r]? ∧
    (merge_derived_context_heap h r ctx).2 ≠ r := by
  obtain ⟨a, b⟩ := soft_patch_heap_frame h r o pu hr
  obtain ⟨c, d⟩ := merge_derived_heap_frame h r ctx hr
  exact ⟨a, b, c, d⟩

/-- Concrete instance of `patch_never_mutates_input` on a one-object
heap. -/
theorem patch_never_mutates_input_witness :
    ((soft_patch_topology_heap [{ pulse := 1 }] 0 (some "o") (some "p")).1)[0]? =
        [({ pulse := 1 } : SigilPayloadLoose)][0]? ∧
    ((soft_patch_topology_heap [{ pulse := 1 }] 0 (some "o") (some "p")).2.2 = true →
      (soft_patch_topology_heap [{ pulse := 1 }] 0 (some "o") (some "p")).2.1 ≠ 0) ∧
    ((merge_derived_context_heap [{ pulse := 1 }] 0
        { chain := ["c"], originUrl := some "c", parentUrl := some "c" }).1)[0]? =
        [({ pulse := 1 } : SigilPayloadLoose)][0]? ∧
    (merge_derived_context_heap [{ pulse := 1 }] 0
        { chain := ["c"], originUrl := some "c", parentUrl := some "c" }).2 ≠ 0 :=
  patch_never_mutates_input [{ pulse := 1 }] 0 (some "o") (some "p")
    { chain := ["c"], originUrl := some "c", parentUrl := some "c" } (by decide)

/-! ## C5: idempotence of ingest

The proof works per key: both the merge phase and the synthesis phase act
on each registry key independently, so the batch's effect at a key is a
function of the old value at that key only, and that function is shown
idempotent. -/

theorem kaiGE_iff (a b : KaiTup) :
    kaiGE a b = true ↔
      (b.1 < a.1 ∨ (a.1 = b.1 ∧ (b.2.1 < a.2.1 ∨ (a.2.1 = b.2.1 ∧ b.2.2 ≤ a.2.2)))) := by
  simp [kaiGE]

theorem kaiGE_of_eq {a b : KaiTup} (h : a = b) : kaiGE a b = true := by
  subst h
  rw [kaiGE_iff]
  omega

theorem kaiGE_trans {a b c : KaiTup} (h1 : kaiGE a b = true) (h2 : kaiGE b c = true) :
    kaiGE a c = true := by
  rw [kaiGE_iff] at h1 h2 ⊢
  rcases a with ⟨a1, a2, a3⟩
  rcases b with ⟨b1, b2, b3⟩
  rcases c with ⟨c1, c2, c3⟩
  simp at h1 h2 ⊢
  omega

theorem kaiGE_antisymm {a b : KaiTup} (h1 : kaiGE a b = true) (h2 : kaiGE b a = true) :
    a = b := by
  rw [kaiGE_iff] at h1 h2
  rcases a with ⟨a1, a2, a3⟩
  rcases b with ⟨b1, b2, b3⟩
  simp at h1 h2 ⊢
  omega

theorem kaiGE_total {a b : KaiTup} (h : kaiGE a b = false) : kaiGE b a = true := by
  rw [← Bool.not_eq_true, kaiGE_iff] at h
  rw [kaiGE_iff]
  rcases a with ⟨a1, a2, a3⟩
  rcases b with ⟨b1, b2, b3⟩
  simp at h ⊢
  omega

/-- The per-key effect of one candidate (`keyStepC k`): at its own key the
candidate inserts or conditionally replaces; elsewhere it does nothing. -/
def keyStepC (k : String) (x : Option SigilPayloadLoose) (c : Cand) :
    Option SigilPayloadLoose :=
  if c.key = k then
    match x with
    | none => some c.payload
    | some p => if kaiGE (kaiTuple c.payload) (kaiTuple p) then some c.payload else some p
  else x

theorem regFind_applyCand (reg : Registry) (c : Cand) (k : String) :
    regFind (applyCand reg c) k = keyStepC k (regFind reg k) c := by
  unfold applyCand keyStepC
  by_cases hk : c.key = k
  · subst hk
    cases hx : regFind reg c.key with
    | none => simp [hx, regFind_regSet_self]
    | some p =>
      by_cases hge : kaiGE (kaiTuple c.payload) (kaiTuple p) = true
      · simp [hx, hge, regFind_regSet_self]
      · simp [hx, hge]
  · cases hx : regFind reg c.key with
    | none => simp [hx, hk, regFind_regSet_ne reg c.key k _ (Ne.symm hk)]
    | some p =>
      by_cases hge : kaiGE (kaiTuple c.payload) (kaiTuple p) = true
      · simp [hx, hge, hk, regFind_regSet_ne reg c.key k _ (Ne.symm hk)]
      · simp [hx, hge, hk]

theorem regFind_mergePhase (cs : List Cand) :
    ∀ (reg : Registry) (k : String),
      regFind (mergePhase reg cs) k = cs.foldl (keyStepC k) (regFind reg k) := by
  induction cs with
  | nil => intro reg k; rfl
  | cons c rest ih =>
    intro reg k
    show regFind (mergePhase (applyCand reg c) rest) k = _
    rw [ih (applyCand reg c) k, regFind_applyCand]
    rfl

theorem keyStepC_other {k : String} (x : Option SigilPayloadLoose) {c : Cand}
    (h : ¬c.key = k) : keyStepC k x c = x := by
  simp [keyStepC, h]

theorem keyStepC_some {k : String} {x : Option SigilPayloadLoose} {c : Cand}
    {p : SigilPayloadLoose} (h : x = some p) :
    ∃ p1, keyStepC k x c = some p1 ∧ kaiGE (kaiTuple p1) (kaiTuple p) = true := by
  subst h
  unfold keyStepC
  by_cases hk : c.key = k
  · by_cases hge : kaiGE (kaiTuple c.payload) (kaiTuple p) = true
    · exact ⟨c.payload, by simp [hk, hge], hge⟩
    · exact ⟨p, by simp [hk, hge], kaiGE_of_eq rfl⟩
  · exact ⟨p, by simp [hk], kaiGE_of_eq rfl⟩

theorem keyStepC_key_some {k : String} (x : Option SigilPayloadLoose) {c : Cand}
    (h : c.key = k) :
    ∃ p1, keyStepC k x c = some p1 ∧ kaiGE (kaiTuple p1) (kaiTuple c.payload) = true := by
  unfold keyStepC
  cases x with
  | none => exact ⟨c.payload, by simp [h], kaiGE_of_eq rfl⟩
  | some p =>
    by_cases hge : kaiGE (kaiTuple c.payload) (kaiTuple p) = true
    · exact ⟨c.payload, by simp [h, hge], kaiGE_of_eq rfl⟩
    · exact ⟨p, by simp [h, hge], kaiGE_total (Bool.eq_false_iff.mpr hge)⟩

theorem candFold_id {k : String} (cs : List Cand) :
    ∀ x, (∀ c ∈ cs, ¬c.key = k) → cs.foldl (keyStepC k) x = x := by
  induction cs with
  | nil => intro x _; rfl
  | cons c rest ih =>
    intro x h
    show rest.foldl (keyStepC k) (keyStepC k x c) = x
    rw [keyStepC_other x (h c (by simp))]
    exact ih x fun c' hc' => h c' (by simp [hc'])

theorem candFold_some_of_some {k : String} (cs : List Cand) :
    ∀ (p : SigilPayloadLoose), ∃ q, cs.foldl (keyStepC k) (some p) = some q := by
  induction cs with
  | nil => intro p; exact ⟨p, rfl⟩
  | cons c rest ih =>
    intro p
    obtain ⟨p1, hp1, _⟩ := keyStepC_some (c := c) (k := k) (rfl : some p = some p)
    show ∃ q, rest.foldl (keyStepC k) (keyStepC k (some p) c) = some q
    rw [hp1]
    exact ih p1

theorem candFold_mono {k : String} (cs : List Cand) :
    ∀ (p q : SigilPayloadLoose), cs.foldl (keyStepC k) (some p) = some q →
      kaiGE (kaiTuple q) (kaiTuple p) = true := by
  induction cs with
  | nil => intro p q h; cases h; exact kaiGE_of_eq rfl
  | cons c rest ih =>
    intro p q h
    obtain ⟨p1, hp1, hge⟩ := keyStepC_some (c := c) (k := k) (rfl : some p = some p)
    rw [List.foldl_cons, hp1] at h
    exact kaiGE_trans (ih p1 q h) hge

theorem candFold_some_of_mem {k : String} (cs : List Cand) :
    ∀ (x : Option SigilPayloadLoose) (c0 : Cand), c0 ∈ cs → c0.key = k →
      ∃ q, cs.foldl (keyStepC k) x = some q := by
  induction cs with
  | nil => intro x c0 hmem; cases hmem
  | cons c rest ih =>
    intro x c0 hmem hk
    rcases List.mem_cons.mp hmem with he | hrest
    · subst he
      obtain ⟨p1, hp1, _⟩ := keyStepC_key_some x hk
      show ∃ q, rest.foldl (keyStepC k) (keyStepC k x c0) = some q
      rw [hp1]
      exact candFold_some_of_some rest p1
    · exact ih _ c0 hrest hk

theorem candFold_ge_cand {k : String} (cs : List Cand) :
    ∀ (x : Option SigilPayloadLoose) (c0 : Cand) (q : SigilPayloadLoose),
      c0 ∈ cs → c0.key = k → cs.foldl (keyStepC k) x = some q →
      kaiGE (kaiTuple q) (kaiTuple c0.payload) = true := by
  induction cs with
  | nil => intro x c0 q hmem; cases hmem
  | cons c rest ih =>
    intro x c0 q hmem hk h
    rcases List.mem_cons.mp hmem with he | hrest
    · subst he
      obtain ⟨p1, hp1, hge⟩ := keyStepC_key_some x hk
      rw [List.foldl_cons, hp1] at h
      exact kaiGE_trans (candFold_mono rest p1 q h) hge
    · exact ih _ c0 q hrest hk h

/-- The payload of the last candidate at key `k` whose tuple equals `t`,
defaulting to `d`. -/
def lastTieD (k : String) (t : KaiTup) (d : SigilPayloadLoose) (cs : List Cand) :
    SigilPayloadLoose :=
  cs.foldl (fun a c => if c.key = k ∧ kaiTuple c.payload = t then c.payload else a) d

theorem candFold_tie {k : String} (cs : List Cand) :
    ∀ (p' : SigilPayloadLoose),
      (∀ c ∈ cs, c.key = k → kaiGE (kaiTuple p') (kaiTuple c.payload) = true) →
      cs.foldl (keyStepC k) (some p') = some (lastTieD k (kaiTuple p') p' cs) := by
  induction cs with
  | nil => intro p' _; rfl
  | cons c rest ih =>
    intro p' h
    by_cases hk : c.key = k
    · by_cases ht : kaiTuple c.payload = kaiTuple p'
      · have hstep : keyStepC k (some p') c = some c.payload := by
          simp [keyStepC, hk, kaiGE_of_eq ht]
        show rest.foldl (keyStepC k) (keyStepC k (some p') c) = _
        rw [hstep]
        have ihr := ih c.payload (fun c' hc' hk' => by
          rw [ht]
          exact h c' (by simp [hc']) hk')
        rw [ihr, ht]
        show _ = some (lastTieD k (kaiTuple p') p' (c :: rest))
        unfold lastTieD
        simp [hk, ht]
      · have hnge : kaiGE (kaiTuple c.payload) (kaiTuple p') = false := by
          cases hb : kaiGE (kaiTuple c.payload) (kaiTuple p') with
          | false => rfl
          | true => exact absurd (kaiGE_antisymm hb (h c (by simp) hk)) ht
        have hstep : keyStepC k (some p') c = some p' := by
          simp [keyStepC, hk, hnge]
        show rest.foldl (keyStepC k) (keyStepC k (some p') c) = _
        rw [hstep, ih p' (fun c' hc' hk' => h c' (by simp [hc']) hk')]
        unfold lastTieD
        simp [hk, ht]
    · have hstep : keyStepC k (some p') c = some p' := keyStepC_other _ hk
      show rest.foldl (keyStepC k) (keyStepC k (some p') c) = _
      rw [hstep, ih p' (fun c' hc' hk' => h c' (by simp [hc']) hk')]
      unfold lastTieD
      simp [hk]

theorem candFold_idem {k : String} (cs : List Cand) :
    ∀ (x : Option SigilPayloadLoose),
      cs.foldl (keyStepC k) (cs.foldl (keyStepC k) x) = cs.foldl (keyStepC k) x := by
  induction cs with
  | nil => intro x; rfl
  | cons c rest ih =>
    intro x
    show rest.foldl (keyStepC k) (keyStepC k (rest.foldl (keyStepC k) (keyStepC k x c)) c) =
      rest.foldl (keyStepC k) (keyStepC k x c)
    by_cases hid : keyStepC k (rest.foldl (keyStepC k) (keyStepC k x c)) c =
        rest.foldl (keyStepC k) (keyStepC k x c)
    · rw [hid]
      exact ih (keyStepC k x c)
    · by_cases hk : c.key = k
      · obtain ⟨p1, hp1, hgec⟩ := keyStepC_key_some x hk
        obtain ⟨pf, hpf⟩ : ∃ pf,
            rest.foldl (keyStepC k) (keyStepC k x c) = some pf := by
          rw [hp1]; exact candFold_some_of_some rest p1
        have hgefp1 : kaiGE (kaiTuple pf) (kaiTuple p1) = true := by
          apply candFold_mono rest p1 pf
          rw [← hp1]; exact hpf
        have hgefc : kaiGE (kaiTuple pf) (kaiTuple c.payload) = true :=
          kaiGE_trans hgefp1 hgec
        have hgecf : kaiGE (kaiTuple c.payload) (kaiTuple pf) = true := by
          cases hb : kaiGE (kaiTuple c.payload) (kaiTuple pf) with
          | true => rfl
          | false =>
            exfalso
            apply hid
            rw [hpf]
            simp [keyStepC, hk, hb]
        -- the step replaces pf by c.payload
        have hstep2 : keyStepC k (rest.foldl (keyStepC k) (keyStepC k x c)) c =
            some c.payload := by
          rw [hpf]
          simp [keyStepC, hk, hgecf]
        rw [hstep2]
        -- case on what the first step did
        cases x with
        | none =>
          have hcstep : keyStepC k (none : Option SigilPayloadLoose) c = some c.payload := by
            simp [keyStepC, hk]
          rw [hcstep]
        | some p =>
          by_cases hge1 : kaiGE (kaiTuple c.payload) (kaiTuple p) = true
          · have hcstep : keyStepC k (some p) c = some c.payload := by
              simp [keyStepC, hk, hge1]
            rw [hcstep]
          · have hcstep : keyStepC k (some p) c = some p := by
              simp [keyStepC, hk, hge1]
            exfalso
            have hp1p : p1 = p := by
              rw [hcstep] at hp1
              cases hp1
              rfl
            subst hp1p
            have heq : kaiTuple c.payload = kaiTuple pf := kaiGE_antisymm hgecf hgefc
            apply hge1
            rw [heq]
            exact hgefp1
      · rw [keyStepC_other _ hk]
        exact ih (keyStepC k x c)

/-- One ensure/patch site of the synthesizer: the key it touches and the
origin/parent values it offers. -/
structure SynthOp where
  key : String
  o : Option String
  pu : Option String

/-- The ensure/patch sites performed by
`synthesize_edges_from_witness_chain`, in order: the origin, each interior
`(parent, child)` pair, and the leaf. -/
def synthOps (chain : List String) (leaf_url : String) (base_origin : String) :
    List SynthOp :=
  if chain.isEmpty then []
  else
    match chain.filterMap (canonicalize_url · base_origin) with
    | [] => []
    | origin :: rest =>
      match canonicalize_url leaf_url base_origin with
      | none => []
      | some leaf_abs =>
        { key := origin, o := some origin, pu := none } ::
          ((chainPairs (origin :: rest)).map fun pr =>
            { key := pr.2, o := some origin, pu := some pr.1 }) ++
          [{ key := leaf_abs, o := some origin,
             pu := some ((origin :: rest).getLast (List.cons_ne_nil _ _)) }]

/-- Run a sequence of ensure/patch sites over the registry. -/
def runOps (base_origin : String) (reg : Registry) (ops : List SynthOp) : Registry :=
  ops.foldl (fun r op => (ensurePatch base_origin r op.key op.o op.pu).1) reg

theorem synthPairsLoop_fst (base origin : String) (pairs : List (String × String)) :
    ∀ (reg : Registry) (c : Nat),
      (synthPairsLoop base origin (reg, c) pairs).1 =
        pairs.foldl (fun r pr => (ensurePatch base r pr.2 (some origin) (some pr.1)).1) reg := by
  induction pairs with
  | nil => intro reg c; rfl
  | cons pr rest ih => intro reg c; exact ih _ _

theorem synthesize_fst_eq_runOps (chain : List String) (leaf_url : String)
    (reg : Registry) (base : String) :
    (synthesize_edges_from_witness_chain chain leaf_url reg base).1 =
      runOps base reg (synthOps chain leaf_url base) := by
  unfold synthesize_edges_from_witness_chain synthOps
  split
  · rfl
  split
  · rfl
  next origin rest heq =>
    split
    · rfl
    next leaf_abs hleaf =>
      dsimp only
      unfold runOps
      simp only [List.foldl_cons, List.foldl_append, List.foldl_map, List.foldl_nil]
      rw [synthPairsLoop_fst]

/-- The effect of one ensure/patch site on the value stored at key `k`: at
its own key it soft-patches the present value, or materializes and patches
the decoded payload when absent and decodable; other keys are untouched. -/
def stepAtKey (base k : String) (x : Option SigilPayloadLoose) (op : SynthOp) :
    Option SigilPayloadLoose :=
  if op.key = k then
    match x with
    | some p => some (soft_patch_topology p op.o op.pu).1
    | none =>
      match extract_payload_from_url k base with
      | none => none
      | some hit => some (soft_patch_topology hit.payload op.o op.pu).1
  else x

theorem soft_patch_noop (p : SigilPayloadLoose) (o pu : Option String)
    (h : (soft_patch_topology p o pu).2 = false) : (soft_patch_topology p o pu).1 = p := by
  by_cases h1 : (optTruthy o && !(optTruthy p.originUrl)) = true
  · exfalso
    have hc : (soft_patch_topology p o pu).2 = true := by
      unfold soft_patch_topology
      simp [h1]
    rw [h] at hc
    cases hc
  · by_cases h2 : (optTruthy pu && !(optTruthy p.parentUrl)) = true
    · exfalso
      have hc : (soft_patch_topology p o pu).2 = true := by
        unfold soft_patch_topology
        simp [h1, h2]
      rw [h] at hc
      cases hc
    · unfold soft_patch_topology
      simp [h1, h2]

theorem regFind_ensurePatch (base : String) (reg : Registry) (k2 : String)
    (o pu : Option String) (k : String) :
    regFind (ensurePatch base reg k2 o pu).1 k =
      stepAtKey base k (regFind reg k) { key := k2, o := o, pu := pu } := by
  unfold ensurePatch ensureReg patchInReg stepAtKey
  by_cases hk : k2 = k
  · subst hk
    cases hx : regFind reg k2 with
    | some p =>
      simp only [hx]
      by_cases hdid : (soft_patch_topology p o pu).2 = true
      · simp [hdid, regFind_regSet_self]
      · rw [Bool.not_eq_true] at hdid
        simp [hdid, hx, soft_patch_noop p o pu hdid]
    | none =>
      cases hxt : extract_payload_from_url k2 base with
      | none => simp [hx, hxt]
      | some hit =>
        have hkey := extract_payload_key_eq _ _ _ hxt
        simp only [hx, hxt, hkey]
        rw [regFind_regSet_self]
        by_cases hdid : (soft_patch_topology hit.payload o pu).2 = true
        · simp [hdid, regFind_regSet_self]
        · rw [Bool.not_eq_true] at hdid
          simp [hdid, regFind_regSet_self, soft_patch_noop _ o pu hdid]
  · have hkne : k ≠ k2 := Ne.symm hk
    cases hx : regFind reg k2 with
    | some p =>
      simp only [hx]
      by_cases hdid : (soft_patch_topology p o pu).2 = true
      · simp [hdid, regFind_regSet_ne reg k2 k _ hkne, hk]
      · rw [Bool.not_eq_true] at hdid
        simp [hdid, hk]
    | none =>
      cases hxt : extract_payload_from_url k2 base with
      | none => simp [hx, hxt, hk]
      | some hit =>
        have hkey := extract_payload_key_eq _ _ _ hxt
        simp only [hx, hxt, hkey]
        rw [regFind_regSet_self]
        by_cases hdid : (soft_patch_topology hit.payload o pu).2 = true
        · simp only [hdid, if_true]
          rw [regFind_regSet_ne _ k2 k _ hkne, regFind_regSet_ne reg k2 k _ hkne]
          simp [hk]
        · rw [Bool.not_eq_true] at hdid
          simp only [hdid, Bool.false_eq_true, if_false]
          rw [regFind_regSet_ne reg k2 k _ hkne]
          simp [hk]

/-- The per-key view of `runOps`: fold of `stepAtKey` over the op list. -/
def runOpsAtKey (base k : String) (x : Option SigilPayloadLoose) (ops : List SynthOp) :
    Option SigilPayloadLoose :=
  ops.foldl (stepAtKey base k) x

theorem regFind_runOps (base : String) (ops : List SynthOp) :
    ∀ (reg : Registry) (k : String),
      regFind (runOps base reg ops) k = runOpsAtKey base k (regFind reg k) ops := by
  induction ops with
  | nil => intro reg k; rfl
  | cons op rest ih =>
    intro reg k
    show regFind (runOps base (ensurePatch base reg op.key op.o op.pu).1 rest) k = _
    rw [ih _ k, regFind_ensurePatch]
    rfl

/-- The per-payload effect of one op at key `k`: a soft patch when the op
targets `k`, the identity otherwise. -/
def patchStepK (k : String) (p : SigilPayloadLoose) (op : SynthOp) : SigilPayloadLoose :=
  if op.key = k then (soft_patch_topology p op.o op.pu).1 else p

theorem runOpsAtKey_some (base k : String) (ops : List SynthOp) :
    ∀ p, runOpsAtKey base k (some p) ops = some (ops.foldl (patchStepK k) p) := by
  induction ops with
  | nil => intro p; rfl
  | cons op rest ih =>
    intro p
    show runOpsAtKey base k (stepAtKey base k (some p) op) rest = _
    by_cases hk : op.key = k
    · rw [show stepAtKey base k (some p) op =
            some (soft_patch_topology p op.o op.pu).1 by simp [stepAtKey, hk]]
      rw [ih]
      simp [patchStepK, hk]
    · rw [show stepAtKey base k (some p) op = some p by simp [stepAtKey, hk]]
      rw [ih]
      simp [patchStepK, hk]

theorem soft_patch_tuple (p : SigilPayloadLoose) (o pu : Option String) :
    kaiTuple (soft_patch_topology p o pu).1 = kaiTuple p := by
  simp only [soft_patch_topology]
  split_ifs <;> rfl

theorem patchFold_tuple (k : String) (ops : List SynthOp) :
    ∀ p, kaiTuple (ops.foldl (patchStepK k) p) = kaiTuple p := by
  induction ops with
  | nil => intro p; rfl
  | cons op rest ih =>
    intro p
    show kaiTuple (rest.foldl (patchStepK k) (patchStepK k p op)) = _
    rw [ih]
    unfold patchStepK
    split
    · exact soft_patch_tuple p op.o op.pu
    · rfl

theorem soft_patch_truthy_origin (p : SigilPayloadLoose) (o pu : Option String)
    (h : optTruthy o = true) :
    optTruthy (soft_patch_topology p o pu).1.originUrl = true := by
  simp only [soft_patch_topology]
  split_ifs with h1 h2
  · simpa using h
  · simpa using h
  · have hp : optTruthy p.originUrl = true := by
      cases hb : optTruthy p.originUrl with
      | true => rfl
      | false => exact absurd (by rw [h, hb]; rfl) h1
    simpa using hp
  · have hp : optTruthy p.originUrl = true := by
      cases hb : optTruthy p.originUrl with
      | true => rfl
      | false => exact absurd (by rw [h, hb]; rfl) h1
    simpa using hp

theorem soft_patch_truthy_parent (p : SigilPayloadLoose) (o pu : Option String)
    (h : optTruthy pu = true) :
    optTruthy (soft_patch_topology p o pu).1.parentUrl = true := by
  simp only [soft_patch_topology]
  split_ifs with h1 h2 h3
  · simpa using h
  · have hp : optTruthy p.parentUrl = true := by
      cases hb : optTruthy p.parentUrl with
      | true => rfl
      | false => exact absurd (by rw [h, hb]; rfl) h2
    simpa using hp
  · simpa using h
  · have hp : optTruthy p.parentUrl = true := by
      cases hb : optTruthy p.parentUrl with
      | true => rfl
      | false => exact absurd (by rw [h, hb]; rfl) h3
    simpa using hp

theorem soft_patch_id_of_truthy (p : SigilPayloadLoose) (o pu : Option String)
    (ho : optTruthy o = true → optTruthy p.originUrl = true)
    (hpu : optTruthy pu = true → optTruthy p.parentUrl = true) :
    (soft_patch_topology p o pu).1 = p := by
  have h1 : (optTruthy o && !(optTruthy p.originUrl)) = false := by
    cases hb : optTruthy o with
    | false => simp
    | true => simp [ho hb]
  have h2 : (optTruthy pu && !(optTruthy p.parentUrl)) = false := by
    cases hb : optTruthy pu with
    | false => simp
    | true => simp [hpu hb]
  unfold soft_patch_topology
  simp [h1, h2]

theorem patchFold_fieldsPreserved (k : String) (ops : List SynthOp) :
    ∀ p, fieldsPreserved p (ops.foldl (patchStepK k) p) := by
  induction ops with
  | nil => intro p; exact fieldsPreserved_refl p
  | cons op rest ih =>
    intro p
    show fieldsPreserved p (rest.foldl (patchStepK k) (patchStepK k p op))
    refine fieldsPreserved_trans ?_ (ih (patchStepK k p op))
    unfold patchStepK
    split
    · exact soft_patch_fieldsPreserved p op.o op.pu
    · exact fieldsPreserved_refl p

theorem truthy_origin_transport {p q : SigilPayloadLoose} (h : fieldsPreserved p q)
    (ht : optTruthy p.originUrl = true) : optTruthy q.originUrl = true := by
  rw [h.1 ht]; exact ht

theorem truthy_parent_transport {p q : SigilPayloadLoose} (h : fieldsPreserved p q)
    (ht : optTruthy p.parentUrl = true) : optTruthy q.parentUrl = true := by
  rw [h.2 ht]; exact ht

theorem patchFold_idem (k : String) (ops : List SynthOp) :
    ∀ p, ops.foldl (patchStepK k) (ops.foldl (patchStepK k) p) =
      ops.foldl (patchStepK k) p := by
  induction ops with
  | nil => intro p; rfl
  | cons op rest ih =>
    intro p
    show rest.foldl (patchStepK k)
        (patchStepK k (rest.foldl (patchStepK k) (patchStepK k p op)) op) =
      rest.foldl (patchStepK k) (patchStepK k p op)
    have hstep : patchStepK k (rest.foldl (patchStepK k) (patchStepK k p op)) op =
        rest.foldl (patchStepK k) (patchStepK k p op) := by
      unfold patchStepK
      split
      next hk =>
        apply soft_patch_id_of_truthy
        · intro hto
          exact truthy_origin_transport (patchFold_fieldsPreserved k rest _)
            (soft_patch_truthy_origin p op.o op.pu hto)
        · intro htp
          exact truthy_parent_transport (patchFold_fieldsPreserved k rest _)
            (soft_patch_truthy_parent p op.o op.pu htp)
      · rfl
    rw [hstep]
    exact ih (patchStepK k p op)

theorem runOpsAtKey_none_of_extract_none (base k : String)
    (hx : extract_payload_from_url k base = none) (ops : List SynthOp) :
    runOpsAtKey base k none ops = none := by
  induction ops with
  | nil => rfl
  | cons op rest ih =>
    show runOpsAtKey base k (stepAtKey base k none op) rest = none
    have : stepAtKey base k none op = none := by
      unfold stepAtKey
      split
      · rw [hx]
      · rfl
    rw [this]
    exact ih

theorem runOpsAtKey_none_eq (base k : String) (hit : ExtractHit)
    (hx : extract_payload_from_url k base = some hit) (ops : List SynthOp) :
    runOpsAtKey base k none ops =
      (if ops.any (fun op => op.key == k) then
        some (ops.foldl (patchStepK k) hit.payload)
      else none) := by
  induction ops with
  | nil => rfl
  | cons op rest ih =>
    by_cases hk : op.key = k
    · have hstep : stepAtKey base k none op =
          some (soft_patch_topology hit.payload op.o op.pu).1 := by
        simp [stepAtKey, hk, hx]
      show runOpsAtKey base k (stepAtKey base k none op) rest = _
      rw [hstep, runOpsAtKey_some]
      have hany : (op :: rest).any (fun op => op.key == k) = true := by
        simp [List.any_cons, hk]
      rw [hany]
      have hps : patchStepK k hit.payload op =
          (soft_patch_topology hit.payload op.o op.pu).1 := by simp [patchStepK, hk]
      simp [List.foldl_cons, hps]
    · have hstep : stepAtKey base k none op = none := by
        simp [stepAtKey, hk]
      show runOpsAtKey base k (stepAtKey base k none op) rest = _
      rw [hstep, ih]
      have hany : (op :: rest).any (fun op => op.key == k) =
          rest.any (fun op => op.key == k) := by
        simp [List.any_cons, hk]
      rw [hany]
      have hps : patchStepK k hit.payload op = hit.payload := by simp [patchStepK, hk]
      by_cases hb : (rest.any fun op => op.key == k) = true
      · simp [hb, List.foldl_cons, hps]
      · simp [hb]

theorem runOpsAtKey_idem (base k : String) (ops : List SynthOp) :
    ∀ x, runOpsAtKey base k (runOpsAtKey base k x ops) ops =
      runOpsAtKey base k x ops := by
  intro x
  cases x with
  | some p =>
    rw [runOpsAtKey_some, runOpsAtKey_some, patchFold_idem]
  | none =>
    cases hx : extract_payload_from_url k base with
    | none =>
      rw [runOpsAtKey_none_of_extract_none base k hx,
        runOpsAtKey_none_of_extract_none base k hx]
    | some hit =>
      by_cases hb : (ops.any fun op => op.key == k) = true
      · have h1 : runOpsAtKey base k none ops =
            some (ops.foldl (patchStepK k) hit.payload) := by
          rw [runOpsAtKey_none_eq base k hit hx]
          simp [hb]
        rw [h1, runOpsAtKey_some, patchFold_idem]
      · have h0 : runOpsAtKey base k none ops = none := by
          rw [runOpsAtKey_none_eq base k hit hx]
          simp [hb]
        rw [h0]
        exact h0

theorem lastTieD_none {k : String} {t : KaiTup} (cs : List Cand) :
    ∀ d, (∀ c ∈ cs, ¬(c.key = k ∧ kaiTuple c.payload = t)) → lastTieD k t d cs = d := by
  induction cs with
  | nil => intro d _; rfl
  | cons c rest ih =>
    intro d h
    unfold lastTieD
    rw [List.foldl_cons]
    have hc : ¬(c.key = k ∧ kaiTuple c.payload = t) := h c (by simp)
    rw [if_neg hc]
    exact ih d fun c' hc' => h c' (by simp [hc'])

theorem lastTieD_indep {k : String} {t : KaiTup} (cs : List Cand) :
    (∃ c ∈ cs, c.key = k ∧ kaiTuple c.payload = t) →
      ∀ d1 d2, lastTieD k t d1 cs = lastTieD k t d2 cs := by
  induction cs with
  | nil => rintro ⟨c, hc, _⟩; cases hc
  | cons c rest ih =>
    rintro ⟨c0, hc0, hcond⟩ d1 d2
    unfold lastTieD
    rw [List.foldl_cons, List.foldl_cons]
    by_cases hc : c.key = k ∧ kaiTuple c.payload = t
    · rw [if_pos hc, if_pos hc]
    · rw [if_neg hc, if_neg hc]
      rcases List.mem_cons.mp hc0 with he | hrest
      · subst he; exact absurd hcond hc
      · exact ih ⟨c0, hrest, hcond⟩ d1 d2

/-- The per-key effect of one full ingest (merge then synthesis) is
idempotent. -/
theorem perKey_idem (base k : String) (cs : List Cand) (ops : List SynthOp)
    (x : Option SigilPayloadLoose) :
    runOpsAtKey base k
        (cs.foldl (keyStepC k) (runOpsAtKey base k (cs.foldl (keyStepC k) x) ops)) ops =
      runOpsAtKey base k (cs.foldl (keyStepC k) x) ops := by
  by_cases hex : ∃ c0 ∈ cs, c0.key = k
  · obtain ⟨c0, hc0, hk0⟩ := hex
    obtain ⟨p, hp⟩ := candFold_some_of_mem cs x c0 hc0 hk0
    rw [hp, runOpsAtKey_some]
    have htup : kaiTuple (ops.foldl (patchStepK k) p) = kaiTuple p := patchFold_tuple k ops p
    have hge : ∀ c ∈ cs, c.key = k →
        kaiGE (kaiTuple (ops.foldl (patchStepK k) p)) (kaiTuple c.payload) = true := by
      intro c hc hkc
      rw [htup]
      exact candFold_ge_cand cs x c p hc hkc hp
    have htie' := candFold_tie cs (ops.foldl (patchStepK k) p) hge
    have hMM : cs.foldl (keyStepC k) (some p) = some p := by
      rw [← hp]
      exact candFold_idem cs x
    have hgep : ∀ c ∈ cs, c.key = k → kaiGE (kaiTuple p) (kaiTuple c.payload) = true :=
      fun c hc hkc => candFold_ge_cand cs x c p hc hkc hp
    have htiep := candFold_tie cs p hgep
    rw [hMM] at htiep
    have hpeq : p = lastTieD k (kaiTuple p) p cs := Option.some.inj htiep
    rw [htie', htup]
    by_cases htieex : ∃ c ∈ cs, c.key = k ∧ kaiTuple c.payload = kaiTuple p
    · rw [lastTieD_indep cs htieex (ops.foldl (patchStepK k) p) p, ← hpeq,
        runOpsAtKey_some]
    · have hnone : ∀ c ∈ cs, ¬(c.key = k ∧ kaiTuple c.payload = kaiTuple p) := by
        intro c hc hcond
        exact htieex ⟨c, hc, hcond⟩
      rw [lastTieD_none cs _ hnone, runOpsAtKey_some, patchFold_idem]
  · have hall : ∀ c ∈ cs, ¬c.key = k := by
      intro c hc hkc
      exact hex ⟨c, hc, hkc⟩
    have hid : ∀ y, cs.foldl (keyStepC k) y = y := fun y => candFold_id cs y hall
    rw [hid, hid]
    exact runOpsAtKey_idem base k ops x

/-- All ensure/patch sites performed by the synthesis phase for a list of
merged-record URLs. -/
def opsOfUrls (base : String) : List String → List SynthOp
  | [] => []
  | u :: rest => synthOps (extract_witness_chain_from_url u base) u base ++ opsOfUrls base rest

theorem synthPhase_eq_runOps (base : String) (urls : List String) :
    ∀ reg, synthPhase base reg urls = runOps base reg (opsOfUrls base urls) := by
  induction urls with
  | nil => intro reg; rfl
  | cons u rest ih =>
    intro reg
    show synthPhase base
        ((synthesize_edges_from_witness_chain (extract_witness_chain_from_url u base) u reg
          base).1) rest = _
    rw [ih, synthesize_fst_eq_runOps, opsOfUrls]
    unfold runOps
    rw [List.foldl_append]

theorem regFind_inhale (reg : Registry) (files : List (String × Blob)) (base : String)
    (k : String) :
    regFind (inhale_files_into_registry reg files base).1 k =
      runOpsAtKey base k
        ((parseBatch base files).cands.foldl (keyStepC k) (regFind reg k))
        (opsOfUrls base ((parseBatch base files).cands.map (·.key))) := by
  unfold inhale_files_into_registry
  dsimp only
  rw [synthPhase_eq_runOps, regFind_runOps, regFind_mergePhase]

theorem inhale_lookup_idem (reg : Registry) (files : List (String × Blob)) (base : String)
    (k : String) :
    regFind
        (inhale_files_into_registry (inhale_files_into_registry reg files base).1 files
          base).1 k =
      regFind (inhale_files_into_registry reg files base).1 k := by
  rw [regFind_inhale, regFind_inhale reg files base k]
  exact perKey_idem base k _ _ _

/-! ### The key set: uniqueness and ordering -/

theorem regKeys_regSet (reg : Registry) (k : String) (p : SigilPayloadLoose) :
    regKeys (regSet reg k p) =
      (if k ∈ regKeys reg then regKeys reg else regKeys reg ++ [k]) := by
  induction reg with
  | nil => simp [regSet, regKeys]
  | cons hd tl ih =>
    by_cases hk : hd.1 = k
    · simp [regSet, regKeys, hk]
    · simp only [regSet, regKeys, if_neg hk, List.map_cons]
      rw [show regKeys (regSet tl k p) = List.map (·.1) (regSet tl k p) from rfl] at ih
      rw [ih]
      by_cases hmem : k ∈ List.map (fun x => x.1) tl
      · simp [regKeys, hmem, Ne.symm hk]
      · simp [regKeys, hmem, Ne.symm hk]

theorem nodup_regSet {reg : Registry} (k : String) (p : SigilPayloadLoose)
    (h : (regKeys reg).Nodup) : (regKeys (regSet reg k p)).Nodup := by
  rw [regKeys_regSet]
  by_cases hmem : k ∈ regKeys reg
  · simpa [hmem] using h
  · simp only [hmem, if_false]
    simp [List.nodup_append, h, hmem]

theorem nodup_applyCand {reg : Registry} (c : Cand) (h : (regKeys reg).Nodup) :
    (regKeys (applyCand reg c)).Nodup := by
  unfold applyCand
  cases regFind reg c.key with
  | none => exact nodup_regSet _ _ h
  | some stored =>
    dsimp only
    by_cases hge : kaiGE (kaiTuple c.payload) (kaiTuple stored) = true
    · rw [if_pos hge]
      exact nodup_regSet _ _ h
    · rw [if_neg hge]
      exact h

theorem nodup_mergePhase (cs : List Cand) :
    ∀ reg : Registry, (regKeys reg).Nodup → (regKeys (mergePhase reg cs)).Nodup := by
  induction cs with
  | nil => intro reg h; exact h
  | cons c rest ih =>
    intro reg h
    exact ih (applyCand reg c) (nodup_applyCand c h)

theorem nodup_ensureReg (base : String) {reg : Registry} (k : String)
    (h : (regKeys reg).Nodup) : (regKeys (ensureReg base reg k).1).Nodup := by
  unfold ensureReg
  cases regFind reg k with
  | some p => exact h
  | none =>
    cases extract_payload_from_url k base with
    | none => exact h
    | some hit => exact nodup_regSet _ _ h

theorem nodup_patchInReg {reg : Registry} (k : String) (o pu : Option String)
    (h : (regKeys reg).Nodup) : (regKeys (patchInReg reg k o pu).1).Nodup := by
  unfold patchInReg
  cases regFind reg k with
  | none => exact h
  | some p =>
    dsimp only
    by_cases hdid : (soft_patch_topology p o pu).2 = true
    · rw [if_pos hdid]
      exact nodup_regSet _ _ h
    · rw [if_neg hdid]
      exact h

theorem nodup_ensurePatch (base : String) {reg : Registry} (k : String)
    (o pu : Option String) (h : (regKeys reg).Nodup) :
    (regKeys (ensurePatch base reg k o pu).1).Nodup := by
  unfold ensurePatch
  exact nodup_patchInReg k o pu (nodup_ensureReg base k h)

theorem nodup_runOps (base : String) (ops : List SynthOp) :
    ∀ reg : Registry, (regKeys reg).Nodup → (regKeys (runOps base reg ops)).Nodup := by
  induction ops with
  | nil => intro reg h; exact h
  | cons op rest ih =>
    intro reg h
    exact ih _ (nodup_ensurePatch base op.key op.o op.pu h)

theorem nodup_inhale (reg : Registry) (files : List (String × Blob)) (base : String)
    (h : (regKeys reg).Nodup) :
    (regKeys (inhale_files_into_registry reg files base).1).Nodup := by
  unfold inhale_files_into_registry
  dsimp only
  rw [synthPhase_eq_runOps]
  exact nodup_runOps base _ _ (nodup_mergePhase _ reg h)

theorem mem_regKeys_iff (reg : Registry) (k : String) :
    k ∈ regKeys reg ↔ (regFind reg k).isSome := by
  induction reg with
  | nil => simp [regKeys, regFind]
  | cons hd tl ih =>
    by_cases hk : hd.1 = k
    · simp [regKeys, regFind, hk]
    · have hfind : regFind (hd :: tl) k = regFind tl k := by simp [regFind, hk]
      rw [hfind]
      show k ∈ hd.1 :: regKeys tl ↔ _
      constructor
      · intro hmem
        rcases List.mem_cons.mp hmem with he | ht
        · exact absurd he.symm hk
        · exact ih.mp ht
      · intro hsome
        exact List.mem_cons.mpr (Or.inr (ih.mpr hsome))

instance ordRel_isTotal (reg : Registry) : IsTotal String (ordRel reg) := by
  constructor
  intro u v
  by_cases hab : tupleAt reg u = tupleAt reg v
  · rcases le_total u v with h | h
    · exact Or.inl (Or.inr ⟨hab, h⟩)
    · exact Or.inr (Or.inr ⟨hab.symm, h⟩)
  · cases hge : kaiGE (tupleAt reg u) (tupleAt reg v) with
    | true => exact Or.inl (Or.inl ⟨hge, hab⟩)
    | false => exact Or.inr (Or.inl ⟨kaiGE_total hge, Ne.symm hab⟩)

instance ordRel_isTrans (reg : Registry) : IsTrans String (ordRel reg) := by
  constructor
  intro u v w huv hvw
  rcases huv with ⟨hge1, hne1⟩ | ⟨heq1, hle1⟩
  · rcases hvw with ⟨hge2, hne2⟩ | ⟨heq2, hle2⟩
    · refine Or.inl ⟨kaiGE_trans hge1 hge2, fun hac => ?_⟩
      have : tupleAt reg v = tupleAt reg u := by
        apply kaiGE_antisymm
        · rw [← hac] at hge2; exact hge2
        · exact hge1
      exact hne1 this.symm
    · exact Or.inl ⟨by rw [← heq2]; exact hge1, by rw [← heq2]; exact hne1⟩
  · rcases hvw with ⟨hge2, hne2⟩ | ⟨heq2, hle2⟩
    · exact Or.inl ⟨by rw [heq1]; exact hge2, by rw [heq1]; exact hne2⟩
    · exact Or.inr ⟨heq1.trans heq2, le_trans hle1 hle2⟩

instance ordRel_isAntisymm (reg : Registry) : IsAntisymm String (ordRel reg) := by
  constructor
  intro u v huv hvu
  rcases huv with ⟨hge1, hne1⟩ | ⟨heq1, hle1⟩
  · rcases hvu with ⟨hge2, _⟩ | ⟨heq2, _⟩
    · exact absurd (kaiGE_antisymm hge1 hge2) hne1
    · exact absurd heq2.symm hne1
  · rcases hvu with ⟨_, hne2⟩ | ⟨_, hle2⟩
    · exact absurd heq1.symm hne2
    · exact le_antisymm hle1 hle2

theorem build_ordered_urls_congr (r1 r2 : Registry)
    (hfind : ∀ k, regFind r2 k = regFind r1 k)
    (h1 : (regKeys r1).Nodup) (h2 : (regKeys r2).Nodup) :
    build_ordered_urls r2 = build_ordered_urls r1 := by
  have hrel : ordRel r2 = ordRel r1 := by
    funext u v
    unfold ordRel tupleAt
    rw [hfind u, hfind v]
  have hperm : List.Perm (regKeys r2) (regKeys r1) := by
    rw [List.perm_ext_iff_of_nodup h2 h1]
    intro a
    rw [mem_regKeys_iff, mem_regKeys_iff, hfind a]
  unfold build_ordered_urls
  have key : ∀ l : List String, List.Sorted (ordRel r2) l → List.Sorted (ordRel r1) l := by
    intro l hl
    rw [← hrel]
    exact hl
  exact List.eq_of_perm_of_sorted
    ((List.perm_insertionSort _ _).trans (hperm.trans (List.perm_insertionSort _ _).symm))
    (key _ (List.sorted_insertionSort _ _))
    (List.sorted_insertionSort _ _)

/-- C5: ingesting the same batch twice yields an identical final registry
(same value at every key and the same ordered key export) and an identical
seal fingerprint, for every batch and every starting registry (a Python
dict, so its keys are unique). -/
theorem inhale_idempotent (reg : Registry) (files : List (String × Blob)) (base : String)
    (hnd : (regKeys reg).Nodup) :
    (∀ k, regFind
        (inhale_files_into_registry (inhale_files_into_registry reg files base).1 files
          base).1 k =
      regFind (inhale_files_into_registry reg files base).1 k) ∧
    build_ordered_urls
        (inhale_files_into_registry (inhale_files_into_registry reg files base).1 files
          base).1 =
      build_ordered_urls (inhale_files_into_registry reg files base).1 ∧
    sealUrls (build_ordered_urls
        (inhale_files_into_registry (inhale_files_into_registry reg files base).1 files
          base).1) =
      sealUrls (build_ordered_urls (inhale_files_into_registry reg files base).1) := by
  have hfind : ∀ k, regFind
      (inhale_files_into_registry (inhale_files_into_registry reg files base).1 files
        base).1 k =
      regFind (inhale_files_into_registry reg files base).1 k :=
    fun k => inhale_lookup_idem reg files base k
  have hnd1 : (regKeys (inhale_files_into_registry reg files base).1).Nodup :=
    nodup_inhale reg files base hnd
  have hnd2 : (regKeys
      (inhale_files_into_registry (inhale_files_into_registry reg files base).1 files
        base).1).Nodup :=
    nodup_inhale _ files base hnd1
  have hord := build_ordered_urls_congr _ _ hfind hnd1 hnd2
  exact ⟨hfind, hord, by rw [hord]⟩

/-- Concrete instance of `inhale_idempotent`: one record ingested twice
into the empty registry. -/
theorem inhale_idempotent_witness :
    regFind
        (inhale_files_into_registry
          (inhale_files_into_registry []
            [("f1.json", Blob.wellFormed (Json.obj [("url", Json.str "https://x.test/u"),
                ("pulse", Json.num 1)]))] "https://x.test").1
          [("f1.json", Blob.wellFormed (Json.obj [("url", Json.str "https://x.test/u"),
              ("pulse", Json.num 1)]))] "https://x.test").1 "https://x.test/u" =
      regFind
        (inhale_files_into_registry []
          [("f1.json", Blob.wellFormed (Json.obj [("url", Json.str "https://x.test/u"),
              ("pulse", Json.num 1)]))] "https://x.test").1 "https://x.test/u" ∧
    sealUrls (build_ordered_urls
        (inhale_files_into_registry
          (inhale_files_into_registry []
            [("f1.json", Blob.wellFormed (Json.obj [("url", Json.str "https://x.test/u"),
                ("pulse", Json.num 1)]))] "https://x.test").1
          [("f1.json", Blob.wellFormed (Json.obj [("url", Json.str "https://x.test/u"),
              ("pulse", Json.num 1)]))] "https://x.test").1) =
      sealUrls (build_ordered_urls
        (inhale_files_into_registry []
          [("f1.json", Blob.wellFormed (Json.obj [("url", Json.str "https://x.test/u"),
              ("pulse", Json.num 1)]))] "https://x.test").1) :=
  ⟨(inhale_idempotent []
      [("f1.json", Blob.wellFormed (Json.obj [("url", Json.str "https://x.test/u"),
          ("pulse", Json.num 1)]))] "https://x.test" (by simp [regKeys])).1 "https://x.test/u",
   (inhale_idempotent []
      [("f1.json", Blob.wellFormed (Json.obj [("url", Json.str "https://x.test/u"),
          ("pulse", Json.num 1)]))] "https://x.test" (by simp [regKeys])).2.2⟩
